import Mathlib

set_option maxRecDepth 100000

/-!
Verification of the `lock` dataset lockfile tool.

This file is a shallow embedding, in Lean 4, of the core of the `lock`
repository: the JSON value model (serde_json with the `preserve_order`
feature, i.e. objects keep insertion order), the canonical JSON encoder
(`src/lockfile/self_hash.rs`), the SHA-256 self-hash engine, record
classification and tool-version merging (`src/lockfile/mod.rs`), input
validation (`src/input/mod.rs`), the refusal envelope builder
(`src/refusal/mod.rs`), lockfile validation and member verification for
`verify` (`src/verify/mod.rs`, `src/verify/members.rs`), and the witness
ledger append path (`src/witness/mod.rs`).

Modelling conventions:
- Rust `u64`/`usize` values are modelled as `Nat`; JSON numbers as `Int`
  (the tool only produces integers in this domain).
- Byte strings are `List Nat` (each entry a byte value).
- File systems are finite association lists from relative path to file
  bytes; `stat` and `read` on an existing file succeed (the I/O-error
  branches of the Rust code are unreachable in this model and the claims
  settled here do not depend on them).
- The BLAKE3 digest used by the witness ledger is treated as an opaque
  parameter (`b3`): every property proved about the ledger holds for an
  arbitrary digest function.  SHA-256 is implemented concretely and
  checked against the published NIST test vectors below.
-/

-- ===========================================================================
-- JSON value model (serde_json::Value, preserve_order: objects keep
-- insertion order; duplicate keys cannot arise from parsing)
-- ===========================================================================

inductive Json where
  | null
  | bool (b : Bool)
  | num (n : Int)
  | str (s : String)
  | arr (items : List Json)
  | obj (entries : List (String × Json))

/-- Association-list lookup used to model `serde_json::Map::get`. -/
def assocFind (entries : List (String × Json)) (key : String) : Option Json :=
  match entries with
  | [] => none
  | (k, v) :: rest => if k = key then some v else assocFind rest key

/-- Model of `Value::get(key)`: `Some` only on objects that contain the key. -/
def jsonGet (v : Json) (key : String) : Option Json :=
  match v with
  | .obj entries => assocFind entries key
  | _ => none

/-- Model of `Value::as_str`. -/
def asStr : Json → Option String
  | .str s => some s
  | _ => none

/-- Model of `Value::as_bool`. -/
def asBool : Json → Option Bool
  | .bool b => some b
  | _ => none

/-- Model of `Value::as_u64`: an integer in `[0, 2^64)`. -/
def asU64 : Json → Option Nat
  | .num n => if 0 ≤ n ∧ n < 18446744073709551616 then some n.toNat else none
  | _ => none

/-- Model of `Value::as_object`. -/
def asObject : Json → Option (List (String × Json))
  | .obj entries => some entries
  | _ => none

/-- Model of `Value::as_array`. -/
def asArray : Json → Option (List Json)
  | .arr items => some items
  | _ => none

-- ===========================================================================
-- String ordering: Rust `Ord` on `String` is lexicographic byte order of the
-- UTF-8 encoding, which coincides with lexicographic order of Unicode code
-- points.  We model it directly on code-point lists (kernel-computable).
-- ===========================================================================

/-- Lexicographic strict order on code-point lists. -/
def codeLtChars : List Char → List Char → Bool
  | [], [] => false
  | [], _ :: _ => true
  | _ :: _, [] => false
  | a :: as, b :: bs =>
    if a.toNat < b.toNat then true
    else if b.toNat < a.toNat then false
    else codeLtChars as bs

/-- Strict string order by Unicode code points (= Rust byte order on UTF-8). -/
def strLt (a b : String) : Bool := codeLtChars a.data b.data

-- ===========================================================================
-- JSON serialization (serde_json::to_string): compact, insertion order,
-- standard escaping.  This is the encoder used for ledger lines; the
-- canonical encoder composes it with recursive key sorting.
-- ===========================================================================

/-- Hex digit character, lowercase (serde_json uses lowercase in escapes). -/
def hexDigitChar : Nat → Char
  | 0 => '0' | 1 => '1' | 2 => '2' | 3 => '3' | 4 => '4' | 5 => '5' | 6 => '6' | 7 => '7'
  | 8 => '8' | 9 => '9' | 10 => 'a' | 11 => 'b' | 12 => 'c' | 13 => 'd' | 14 => 'e' | _ => 'f'

/-- Model of serde_json string escaping for a single character. -/
def escapeChar (c : Char) : List Char :=
  if c = '\"' then ['\\', '\"']
  else if c = '\\' then ['\\', '\\']
  else if c.toNat = 8 then ['\\', 'b']
  else if c.toNat = 9 then ['\\', 't']
  else if c.toNat = 10 then ['\\', 'n']
  else if c.toNat = 12 then ['\\', 'f']
  else if c.toNat = 13 then ['\\', 'r']
  else if c.toNat < 32 then ['\\', 'u', '0', '0', hexDigitChar (c.toNat / 16), hexDigitChar (c.toNat % 16)]
  else [c]

/-- JSON string literal: quote, escape each character, quote. -/
def escapeString (s : String) : String :=
  String.mk ('\"' :: s.data.flatMap escapeChar ++ ['\"'])

/-- Decimal digit character. -/
def digitChar : Nat → Char
  | 0 => '0' | 1 => '1' | 2 => '2' | 3 => '3' | 4 => '4'
  | 5 => '5' | 6 => '6' | 7 => '7' | 8 => '8' | _ => '9'

/-- Decimal digit characters of a natural number, most significant first
(fueled structural recursion; the fuel always suffices). -/
def natDecAux : Nat → Nat → List Char
  | 0, _ => []
  | fuel + 1, n => if n < 10 then [digitChar n] else natDecAux fuel (n / 10) ++ [digitChar (n % 10)]

/-- Decimal rendering of a natural number. -/
def natDec (n : Nat) : String := String.mk (natDecAux (n + 1) n)

/-- Decimal rendering of an integer (serde_json integer formatting). -/
def intDec (n : Int) : String := if n < 0 then "-" ++ natDec n.natAbs else natDec n.natAbs

mutual

/-- Model of `serde_json::to_string`: compact JSON, object entries in map
order (insertion order under `preserve_order`), no added whitespace. -/
def serializeJson : Json → String
  | .null => "null"
  | .bool true => "true"
  | .bool false => "false"
  | .num n => intDec n
  | .str s => escapeString s
  | .arr items => "[" ++ serializeItems items ++ "]"
  | .obj entries => "\x7b" ++ serializeEntries entries ++ "\x7d"

/-- Comma-separated serialization of array items, in order. -/
def serializeItems : List Json → String
  | [] => ""
  | [x] => serializeJson x
  | x :: y :: xs => serializeJson x ++ "," ++ serializeItems (y :: xs)

/-- Comma-separated serialization of object entries, in order. -/
def serializeEntries : List (String × Json) → String
  | [] => ""
  | [(k, v)] => escapeString k ++ ":" ++ serializeJson v
  | (k, v) :: e :: xs => escapeString k ++ ":" ++ serializeJson v ++ "," ++ serializeEntries (e :: xs)

end

-- ===========================================================================
-- Canonical form: `sort_json_value` from src/lockfile/self_hash.rs.
-- `collect::<BTreeMap<_,_>>()` performs ordered inserts that replace on an
-- equal key; we model it as a fold of ordered insert-or-replace.
-- ===========================================================================

/-- Ordered insert into a key-sorted association list, replacing the entry
when the key is already present (BTreeMap insert semantics). -/
def insertSortedEntry : List (String × Json) → String × Json → List (String × Json)
  | [], kv => [kv]
  | (k, v) :: rest, kv =>
    if strLt kv.1 k then kv :: (k, v) :: rest
    else if strLt k kv.1 then (k, v) :: insertSortedEntry rest kv
    else kv :: rest

/-- Model of `collect::<BTreeMap<String, Value>>()` on an entry sequence. -/
def btreeCollect (entries : List (String × Json)) : List (String × Json) :=
  entries.foldl insertSortedEntry []

mutual

/-- Model of `sort_json_value`: recursively sort object keys at every
nesting depth; arrays keep their order; leaves unchanged. -/
def sort_json_value : Json → Json
  | .obj entries => .obj (btreeCollect (sortEntryValues entries))
  | .arr items => .arr (sortItems items)
  | .null => .null
  | .bool b => .bool b
  | .num n => .num n
  | .str s => .str s

/-- Recursively canonicalize each array item, preserving order. -/
def sortItems : List Json → List Json
  | [] => []
  | x :: xs => sort_json_value x :: sortItems xs

/-- Recursively canonicalize each entry value, keys untouched. -/
def sortEntryValues : List (String × Json) → List (String × Json)
  | [] => []
  | (k, v) :: rest => (k, sort_json_value v) :: sortEntryValues rest

end

/-- Model of `to_canonical_json`: sorted keys at all levels, compact output,
no trailing newline (the serializer emits no whitespace at all outside
string literals). -/
def to_canonical_json (v : Json) : String := serializeJson (sort_json_value v)

-- ===========================================================================
-- SHA-256 (FIPS 180-4), over byte lists, kernel-computable.
-- ===========================================================================

/-- Truncation to a 32-bit word. -/
def w32 (x : Nat) : Nat := x % 4294967296

/-- Right rotation of a 32-bit word. -/
def rotr32 (x n : Nat) : Nat := w32 ((x >>> n) ||| (x <<< (32 - n)))

/-- The SHA-256 round constants. -/
def sha256K : List Nat :=
  [1116352408, 1899447441, 3049323471, 3921009573, 961987163, 1508970993, 2453635748, 2870763221,
   3624381080, 310598401, 607225278, 1426881987, 1925078388, 2162078206, 2614888103, 3248222580,
   3835390401, 4022224774, 264347078, 604807628, 770255983, 1249150122, 1555081692, 1996064986,
   2554220882, 2821834349, 2952996808, 3210313671, 3336571891, 3584528711, 113926993, 338241895,
   666307205, 773529912, 1294757372, 1396182291, 1695183700, 1986661051, 2177026350, 2456956037,
   2730485921, 2820302411, 3259730800, 3345764771, 3516065817, 3600352804, 4094571909, 275423344,
   430227734, 506948616, 659060556, 883997877, 958139571, 1322822218, 1537002063, 1747873779,
   1955562222, 2024104815, 2227730452, 2361852424, 2428436474, 2756734187, 3204031479, 3329325298]

/-- The eight working variables of the compression function. -/
structure Sha256State where
  a : Nat
  b : Nat
  c : Nat
  d : Nat
  e : Nat
  f : Nat
  g : Nat
  h : Nat

/-- One round of the SHA-256 compression function. -/
def sha256Round (s : Sha256State) (kw : Nat × Nat) : Sha256State :=
  let bigS1 := (rotr32 s.e 6) ^^^ (rotr32 s.e 11) ^^^ (rotr32 s.e 25)
  let ch := (s.e &&& s.f) ^^^ ((s.e ^^^ 4294967295) &&& s.g)
  let t1 := w32 (s.h + bigS1 + ch + kw.1 + kw.2)
  let bigS0 := (rotr32 s.a 2) ^^^ (rotr32 s.a 13) ^^^ (rotr32 s.a 22)
  let maj := (s.a &&& s.b) ^^^ (s.a &&& s.c) ^^^ (s.b &&& s.c)
  let t2 := w32 (bigS0 + maj)
  ⟨w32 (t1 + t2), s.a, s.b, s.c, w32 (s.d + t1), s.e, s.f, s.g⟩

/-- Message-schedule sigma functions. -/
def smallSigma0 (x : Nat) : Nat := (rotr32 x 7) ^^^ (rotr32 x 18) ^^^ (x >>> 3)

/-- Message-schedule sigma functions. -/
def smallSigma1 (x : Nat) : Nat := (rotr32 x 17) ^^^ (rotr32 x 19) ^^^ (x >>> 10)

/-- Extend a 16-word block to the 64-word message schedule. -/
def extendSchedule : Nat → List Nat → List Nat
  | 0, acc => acc
  | n + 1, acc =>
    match acc.reverse with
    | _ :: w2 :: _ :: _ :: _ :: _ :: w7 :: _ :: _ :: _ :: _ :: _ :: _ :: _ :: w15 :: w16 :: _ =>
      extendSchedule n (acc ++ [w32 (w16 + smallSigma0 w15 + w7 + smallSigma1 w2)])
    | _ => acc

/-- Big-endian packing of bytes into 32-bit words. -/
def bytesToWords : List Nat → List Nat
  | b0 :: b1 :: b2 :: b3 :: rest => (b0 * 16777216 + b1 * 65536 + b2 * 256 + b3) :: bytesToWords rest
  | _ => []

/-- Process one 64-byte block. -/
def sha256Block (hs : List Nat) (block : List Nat) : List Nat :=
  let schedule := extendSchedule 48 (bytesToWords block)
  match hs with
  | [h0, h1, h2, h3, h4, h5, h6, h7] =>
    let s := (sha256K.zip schedule).foldl sha256Round ⟨h0, h1, h2, h3, h4, h5, h6, h7⟩
    [w32 (h0 + s.a), w32 (h1 + s.b), w32 (h2 + s.c), w32 (h3 + s.d),
     w32 (h4 + s.e), w32 (h5 + s.f), w32 (h6 + s.g), w32 (h7 + s.h)]
  | _ => hs

/-- Split a byte list into 64-byte chunks (fueled, structural recursion). -/
def chunks64Aux : Nat → List Nat → List (List Nat)
  | 0, _ => []
  | _ + 1, [] => []
  | fuel + 1, l => l.take 64 :: chunks64Aux fuel (l.drop 64)

/-- Split a byte list into 64-byte chunks. -/
def chunks64 (l : List Nat) : List (List Nat) := chunks64Aux l.length l

/-- SHA-256 padding: 128, zeros, 64-bit big-endian bit length. -/
def sha256Pad (msg : List Nat) : List Nat :=
  let len := msg.length
  let bitLen := len * 8
  let padZeros := (119 - (len % 64)) % 64
  msg ++ [128] ++ List.replicate padZeros 0 ++
    [(bitLen / 72057594037927936) % 256, (bitLen / 281474976710656) % 256,
     (bitLen / 1099511627776) % 256, (bitLen / 4294967296) % 256,
     (bitLen / 16777216) % 256, (bitLen / 65536) % 256, (bitLen / 256) % 256, bitLen % 256]

/-- SHA-256 digest as eight 32-bit words. -/
def sha256Words (msg : List Nat) : List Nat :=
  (chunks64 (sha256Pad msg)).foldl sha256Block
    [1779033703, 3144134277, 1013904242, 2773480762, 1359893119, 2600822924, 528734635, 1541459225]

/-- Eight lowercase hex characters of a 32-bit word. -/
def wordHex (w : Nat) : List Char :=
  [hexDigitChar (w / 268435456 % 16), hexDigitChar (w / 16777216 % 16),
   hexDigitChar (w / 1048576 % 16), hexDigitChar (w / 65536 % 16),
   hexDigitChar (w / 4096 % 16), hexDigitChar (w / 256 % 16),
   hexDigitChar (w / 16 % 16), hexDigitChar (w % 16)]

/-- SHA-256 digest as a 64-character lowercase hex string. -/
def sha256HexString (msg : List Nat) : String :=
  String.mk ((sha256Words msg).flatMap wordHex)

/-- UTF-8 encoding of one character. -/
def utf8Char (c : Char) : List Nat :=
  let n := c.toNat
  if n < 128 then [n]
  else if n < 2048 then [192 + n / 64, 128 + n % 64]
  else if n < 65536 then [224 + n / 4096, 128 + (n / 64) % 64, 128 + n % 64]
  else [240 + n / 262144, 128 + (n / 4096) % 64, 128 + (n / 64) % 64, 128 + n % 64]

/-- UTF-8 bytes of a string (Rust `str::as_bytes`). -/
def strBytes (s : String) : List Nat := s.data.flatMap utf8Char

/-- SHA-256 vector check: the empty message (NIST FIPS 180-4). -/
theorem sha256_nist_vector_empty :
    sha256HexString [] = "e3b0c44298fc1c149afbf4c8996fb92427ae41e4649b934ca495991b7852b855" := by
  decide

/-- SHA-256 vector check: the three-byte message "abc" (NIST FIPS 180-4). -/
theorem sha256_nist_vector_abc :
    sha256HexString (strBytes "abc") = "ba7816bf8f01cfea414140de5dae2223b00361a396177a9cb410ff61f20015ad" := by
  decide

-- ===========================================================================
-- Generic ordered association-list operations shared by the BTreeMap models
-- ===========================================================================

/-- Generic association-list lookup (first match). -/
def assocLookup {α : Type} (entries : List (String × α)) (key : String) : Option α :=
  match entries with
  | [] => none
  | (k, v) :: rest => if k = key then some v else assocLookup rest key

/-- Ordered insert into a key-sorted association list, keeping the existing
entry when the key is already present (`BTreeMap::entry().or_insert`). -/
def orInsertKV {α : Type} : List (String × α) → String → α → List (String × α)
  | [], k, v => [(k, v)]
  | (k0, v0) :: rest, k, v =>
    if strLt k k0 then (k, v) :: (k0, v0) :: rest
    else if strLt k0 k then (k0, v0) :: orInsertKV rest k v
    else (k0, v0) :: rest

/-- Ordered insert-or-replace into a key-sorted association list of strings
(`BTreeMap` collect semantics for warning details). -/
def insertSortedKVS : List (String × String) → String × String → List (String × String)
  | [], kv => [kv]
  | (k, v) :: rest, kv =>
    if strLt kv.1 k then kv :: (k, v) :: rest
    else if strLt k kv.1 then (k, v) :: insertSortedKVS rest kv
    else kv :: rest

-- ===========================================================================
-- Lockfile data model (src/lockfile/mod.rs) and serde serialization to the
-- generic JSON value (struct fields in declaration order; maps in key order)
-- ===========================================================================

structure FingerprintResult where
  fingerprint_id : String
  fingerprint_version : String
  matched : Bool
  content_hash : Option String
deriving DecidableEq

structure Member where
  path : String
  bytes_hash : String
  size : Nat
  fingerprint : Option FingerprintResult
deriving DecidableEq

structure Warning where
  tool : String
  code : String
  message : String
  detail : List (String × String)
deriving DecidableEq

structure SkippedEntry where
  path : String
  warnings : List Warning
deriving DecidableEq

structure Lockfile where
  version : String
  lock_hash : String
  dataset_id : Option String
  as_of : Option String
  note : Option String
  created : String
  tool_versions : List (String × String)
  profiles : List String
  skipped : List SkippedEntry
  members : List Member
  skipped_count : Nat
  member_count : Nat
deriving DecidableEq

/-- Serde serialization of `Option<String>`: `null` or the string. -/
def optStrJson : Option String → Json
  | none => Json.null
  | some s => Json.str s

/-- Serde serialization of a `FingerprintResult`, fields in declared order. -/
def fingerprintToJson (f : FingerprintResult) : Json :=
  .obj [("fingerprint_id", .str f.fingerprint_id),
        ("fingerprint_version", .str f.fingerprint_version),
        ("matched", .bool f.matched),
        ("content_hash", optStrJson f.content_hash)]

/-- Serde serialization of a `Member`, fields in declared order. -/
def memberToJson (m : Member) : Json :=
  .obj [("path", .str m.path), ("bytes_hash", .str m.bytes_hash),
        ("size", .num m.size),
        ("fingerprint", match m.fingerprint with
          | none => Json.null
          | some f => fingerprintToJson f)]

/-- Serde serialization of a `Warning` (its `detail` map in key order). -/
def warningToJson (w : Warning) : Json :=
  .obj [("tool", .str w.tool), ("code", .str w.code), ("message", .str w.message),
        ("detail", .obj (w.detail.map fun kv => (kv.1, Json.str kv.2)))]

/-- Serde serialization of a `SkippedEntry`. -/
def skippedToJson (s : SkippedEntry) : Json :=
  .obj [("path", .str s.path), ("warnings", .arr (s.warnings.map warningToJson))]

/-- Serde serialization of a `Lockfile`, fields in declared order (the
canonical encoder re-sorts all object keys afterwards). -/
def lockfileToJson (lf : Lockfile) : Json :=
  .obj [("version", .str lf.version),
        ("lock_hash", .str lf.lock_hash),
        ("dataset_id", optStrJson lf.dataset_id),
        ("as_of", optStrJson lf.as_of),
        ("note", optStrJson lf.note),
        ("created", .str lf.created),
        ("tool_versions", .obj (lf.tool_versions.map fun kv => (kv.1, Json.str kv.2))),
        ("profiles", .arr (lf.profiles.map Json.str)),
        ("skipped", .arr (lf.skipped.map skippedToJson)),
        ("members", .arr (lf.members.map memberToJson)),
        ("skipped_count", .num lf.skipped_count),
        ("member_count", .num lf.member_count)]

-- ===========================================================================
-- Self-hash engine (src/lockfile/self_hash.rs)
-- ===========================================================================

/-- Model of `compute_lock_hash`: blank `lock_hash`, canonicalize, SHA-256,
return `"sha256:"` plus the lowercase hex digest. -/
def compute_lock_hash (lockfile : Lockfile) : String :=
  "sha256:" ++ sha256HexString (strBytes (to_canonical_json
    (lockfileToJson { lockfile with lock_hash := "" })))

/-- Model of `verify_lock_hash`: the stored hash equals a fresh computation. -/
def verify_lock_hash (lockfile : Lockfile) : Bool :=
  lockfile.lock_hash == compute_lock_hash lockfile

/-- Replace-in-place insert used to model `serde_json::Map::insert` under
`preserve_order` (an existing key keeps its position; a new key is appended). -/
def assocSet (entries : List (String × Json)) (key : String) (v : Json) : List (String × Json) :=
  match entries with
  | [] => [(key, v)]
  | (k, w) :: rest => if k = key then (k, v) :: rest else (k, w) :: assocSet rest key v

/-- Model of `value.as_object_mut().insert(key, v)`: no-op on non-objects. -/
def jsonInsert (j : Json) (key : String) (v : Json) : Json :=
  match j with
  | .obj entries => .obj (assocSet entries key v)
  | other => other

/-- Model of `verify_lock_hash_from_json`, applied to the parsed JSON value
(the text-to-value parse step of serde is modelled as the identity on the
parsed value; a parse failure is a serde error, not a `false` result). -/
def verify_lock_hash_from_json (value : Json) : Bool :=
  let stored := ((jsonGet value "lock_hash").bind asStr).getD ""
  let blanked := jsonInsert value "lock_hash" (Json.str "")
  let computed := "sha256:" ++ sha256HexString (strBytes (to_canonical_json blanked))
  stored == computed

-- ===========================================================================
-- Input records, classification, tool-version merge (src/input/mod.rs,
-- src/lockfile/mod.rs)
-- ===========================================================================

structure InputRecord where
  line_number : Nat
  value : Json

inductive ClassificationError where
  | missingPath (line_number : Nat)
  | missingBytesHash (line_number : Nat)
  | missingSize (line_number : Nat)
deriving DecidableEq

inductive DomainOutcome where
  | lockCreated
  | lockPartial
  | refusal
deriving DecidableEq

/-- Exit codes of the lock path (src/output/mod.rs). -/
def DomainOutcome.exit_code : DomainOutcome → Nat
  | .lockCreated => 0
  | .lockPartial => 1
  | .refusal => 2

structure Classification where
  members : List Member
  skipped : List SkippedEntry
  skipped_count : Nat
  member_count : Nat
  outcome : DomainOutcome
deriving DecidableEq

/-- Model of `normalize_path`: every backslash becomes a forward slash. -/
def normalize_path (path : String) : String :=
  String.mk (path.data.map fun c => if c = '\\' then '/' else c)

/-- Model of `extract_record_path`: `relative_path` as a string, else `path`
as a string, else a missing-path classification error; then normalized. -/
def extract_record_path (value : Json) (line_number : Nat) :
    Except ClassificationError String :=
  match (jsonGet value "relative_path").bind asStr with
  | some p => .ok (normalize_path p)
  | none =>
    match (jsonGet value "path").bind asStr with
    | some p => .ok (normalize_path p)
    | none => .error (.missingPath line_number)

/-- Model of `extract_fingerprint` (all-or-nothing except `content_hash`). -/
def extract_fingerprint (value : Json) : Option FingerprintResult :=
  match (jsonGet value "fingerprint").bind asObject with
  | none => none
  | some entries =>
    match (assocLookup entries "fingerprint_id").bind asStr,
          (assocLookup entries "fingerprint_version").bind asStr,
          (assocLookup entries "matched").bind asBool with
    | some fid, some fver, some matched =>
      some ⟨fid, fver, matched, (assocLookup entries "content_hash").bind asStr⟩
    | _, _, _ => none

/-- Model of `extract_warning_detail`: each value rendered as itself when a
string, else by its compact JSON form; collected into a `BTreeMap`. -/
def extract_warning_detail (value : Option Json) : List (String × String) :=
  match value.bind asObject with
  | none => []
  | some entries =>
    (entries.map fun kv =>
      (kv.1, match asStr kv.2 with
        | some s => s
        | none => serializeJson kv.2)).foldl insertSortedKVS []

/-- Model of `extract_warnings`: the `_warnings` array filtered to objects,
each mapped to a `Warning` with empty-string defaults. -/
def extract_warnings (value : Json) : List Warning :=
  match (jsonGet value "_warnings").bind asArray with
  | none => []
  | some warnings =>
    (warnings.filterMap asObject).map fun w =>
      { tool := ((assocLookup w "tool").bind asStr).getD ""
        code := ((assocLookup w "code").bind asStr).getD ""
        message := ((assocLookup w "message").bind asStr).getD ""
        detail := extract_warning_detail (assocLookup w "detail") }

/-- The `_skipped` test shared by validation and classification: only the
JSON boolean value of the `_skipped` field counts, default false. -/
def record_skipped_flag (value : Json) : Bool :=
  ((jsonGet value "_skipped").bind asBool).getD false

/-- The per-record body of the classification loop: a record with a true
`_skipped` boolean becomes a skipped entry; any other record must supply a
string `bytes_hash` and a u64 `size` and becomes a member; errors carry the
record's line number (src/lockfile/mod.rs, the loop body of
`classify_records`). -/
def record_class (r : InputRecord) : Except ClassificationError (Sum Member SkippedEntry) :=
  match extract_record_path r.value r.line_number with
  | .error e => .error e
  | .ok path =>
    if record_skipped_flag r.value then
      .ok (.inr ⟨path, extract_warnings r.value⟩)
    else
      match (jsonGet r.value "bytes_hash").bind asStr with
      | none => .error (.missingBytesHash r.line_number)
      | some bytes_hash =>
        match (jsonGet r.value "size").bind asU64 with
        | none => .error (.missingSize r.line_number)
        | some size => .ok (.inl ⟨path, bytes_hash, size, extract_fingerprint r.value⟩)

/-- Classify every record in input order, aborting at the first error. -/
def classifySeq : List InputRecord → Except ClassificationError (List (Sum Member SkippedEntry))
  | [] => .ok []
  | r :: rest =>
    match record_class r with
    | .error e => .error e
    | .ok c =>
      match classifySeq rest with
      | .error e => .error e
      | .ok cs => .ok (c :: cs)

/-- Select the members of a classified sequence, in record order. -/
def pickMembers (cs : List (Sum Member SkippedEntry)) : List Member :=
  cs.filterMap fun c => match c with | .inl m => some m | _ => none

/-- Select the skipped entries of a classified sequence, in record order. -/
def pickSkipped (cs : List (Sum Member SkippedEntry)) : List SkippedEntry :=
  cs.filterMap fun c => match c with | .inr s => some s | _ => none

/-- The classification loop: members and skipped entries in record order,
first error aborting. -/
def classifyAux (records : List InputRecord) :
    Except ClassificationError (List Member × List SkippedEntry) :=
  match classifySeq records with
  | .error e => .error e
  | .ok cs => .ok (pickMembers cs, pickSkipped cs)

/-- Sort discipline of `classify_records`: ascending by `path` under the
code-point order.  The Rust code uses `sort_unstable_by` on the path
comparator; the model fixes the order of equal-path records to input order
(which is what Rust's small-slice insertion sort produces as well).  Only
the by-path ordering is relied on by any theorem below. -/
def memberLe (a b : Member) : Prop := strLt b.path a.path = false

/-- Sort discipline for skipped entries, same comparator. -/
def skippedLe (a b : SkippedEntry) : Prop := strLt b.path a.path = false

instance : DecidableRel memberLe := fun a b => instDecidableEqBool (strLt b.path a.path) false

instance : DecidableRel skippedLe := fun a b => instDecidableEqBool (strLt b.path a.path) false

/-- Model of `classify_records`: classify each record in order, sort both
sequences by path, count, and derive the domain outcome. -/
def classify_records (records : List InputRecord) : Except ClassificationError Classification := do
  let (ms, ss) ← classifyAux records
  let members := List.insertionSort memberLe ms
  let skipped := List.insertionSort skippedLe ss
  return { members := members
           skipped := skipped
           skipped_count := skipped.length
           member_count := members.length
           outcome := if skipped.isEmpty then .lockCreated else .lockPartial }

/-- The per-record step of `merge_tool_versions`: walk the record's
`tool_versions` object entries in order, inserting string values only when
the tool key is not yet present. -/
def insertRecordToolVersions (m : List (String × String)) (r : InputRecord) :
    List (String × String) :=
  match (jsonGet r.value "tool_versions").bind asObject with
  | none => m
  | some entries =>
    entries.foldl (fun m kv =>
      match asStr kv.2 with
      | none => m
      | some ver => orInsertKV m kv.1 ver) m

/-- Model of `merge_tool_versions`: walk all records (including skipped
ones) in input order with first-seen-wins inserts, then insert the running
tool's version under `lock` only if that key is still vacant. -/
def merge_tool_versions (records : List InputRecord) (lock_version : String) :
    List (String × String) :=
  orInsertKV (records.foldl insertRecordToolVersions []) "lock" lock_version

-- ===========================================================================
-- Input validation (src/input/mod.rs)
-- ===========================================================================

structure VersionErrorDetail where
  line : Nat
  version : Option String
deriving DecidableEq

structure MissingHashDetail where
  count : Nat
  sample_paths : List String
deriving DecidableEq

inductive ValidationError where
  | badVersion (d : VersionErrorDetail)
  | missingHash (d : MissingHashDetail)
deriving DecidableEq

/-- The accepted input record versions. -/
def ACCEPTED_RECORD_VERSIONS : List String := ["vacuum.v0", "hash.v0", "fingerprint.v0"]

/-- Model of `validate_version`. -/
def validate_version (r : InputRecord) : Except ValidationError Unit :=
  match (jsonGet r.value "version").bind asStr with
  | some v =>
    if v ∈ ACCEPTED_RECORD_VERSIONS then .ok ()
    else .error (.badVersion ⟨r.line_number, some v⟩)
  | none => .error (.badVersion ⟨r.line_number, none⟩)

/-- Model of `input::is_skipped`. -/
def is_skipped (r : InputRecord) : Bool := record_skipped_flag r.value

/-- Model of `has_non_empty_string_field`: the field is a string with at
least one non-whitespace character (Rust: `!field.trim().is_empty()`). -/
def has_non_empty_string_field (value : Json) (key : String) : Bool :=
  match (jsonGet value key).bind asStr with
  | some s => s.data.any fun c => !c.isWhitespace
  | none => false

/-- Model of `path_for_missing_hash`: note that `relative_path`, when
present with any type, shadows `path` before the string coercion. -/
def path_for_missing_hash (r : InputRecord) : String :=
  ((match jsonGet r.value "relative_path" with
    | some v => some v
    | none => jsonGet r.value "path").bind asStr).getD "<unknown>"

/-- The validation loop: version-gate each record in order, collecting the
paths of non-skipped records that lack a usable `bytes_hash`. -/
def validateAux : List InputRecord → List String → Except ValidationError (List String)
  | [], acc => .ok acc
  | r :: rest, acc =>
    match validate_version r with
    | .error e => .error e
    | .ok _ =>
      if is_skipped r then validateAux rest acc
      else if has_non_empty_string_field r.value "bytes_hash" then validateAux rest acc
      else validateAux rest (acc ++ [path_for_missing_hash r])

/-- Model of `validate_records`. -/
def validate_records (records : List InputRecord) : Except ValidationError Unit :=
  match validateAux records [] with
  | .error e => .error e
  | .ok [] => .ok ()
  | .ok paths => .error (.missingHash ⟨paths.length, paths.take 5⟩)

-- ===========================================================================
-- Refusal envelopes for the lock path (src/refusal/mod.rs)
-- ===========================================================================

inductive RefusalCode where
  | empty
  | badInput
  | missingHash
deriving DecidableEq

/-- Wire format of the refusal codes. -/
def RefusalCode.as_str : RefusalCode → String
  | .empty => "E_EMPTY"
  | .badInput => "E_BAD_INPUT"
  | .missingHash => "E_MISSING_HASH"

structure Refusal where
  code : RefusalCode
  message : String
  detail : Json
  next_command : Option String

structure RefusalEnvelope where
  version : String
  outcome : String
  refusal : Refusal

/-- Model of `refusal::missing_hash`: the sample is capped at five paths,
`count` is the total. -/
def missing_hash (count : Nat) (all_paths : List String) : RefusalEnvelope :=
  let sample_paths := all_paths.take 5
  let noun := if count = 1 then "record lacks" else "records lack"
  { version := "lock.v0"
    outcome := "REFUSAL"
    refusal :=
      { code := .missingHash
        message := natDec count ++ " " ++ noun ++ " bytes_hash — run hash first"
        detail := .obj [("count", .num count),
                        ("sample_paths", .arr (sample_paths.map Json.str))]
        next_command := some "vacuum <path> | hash | lock" } }

/-- Model of `refusal::bad_input_version`. -/
def bad_input_version (line : Nat) (version : String) : RefusalEnvelope :=
  { version := "lock.v0"
    outcome := "REFUSAL"
    refusal :=
      { code := .badInput
        message := "unknown record version \"" ++ version ++ "\" at line " ++ natDec line
          ++ " — check upstream tool output"
        detail := .obj [("line", .num line), ("version", .str version)]
        next_command := none } }

/-- The orchestrator's mapping from a validation error to the emitted
refusal envelope (src/lib.rs, `orchestrate_from_read_result`). -/
def lock_validation_refusal : ValidationError → RefusalEnvelope
  | .badVersion d => bad_input_version d.line (d.version.getD "<missing>")
  | .missingHash d => missing_hash d.count d.sample_paths

-- ===========================================================================
-- Member verification (src/verify/members.rs)
-- ===========================================================================

structure MemberFailure where
  path : String
  reason : String
  expected : Option String
  actual : Option String
  expected_size : Option Nat
  actual_size : Option Nat
deriving DecidableEq

structure MemberSkip where
  path : String
  reason : String
  detail : String
deriving DecidableEq

structure MembersResult where
  root : String
  checked : Nat
  verified : Nat
  failed : Nat
  skipped : Nat
  failures : List MemberFailure
  skips : List MemberSkip
deriving DecidableEq

/-- A filesystem model: finite map from a relative path to the file's
bytes; `stat` and buffered reads on an existing file always succeed. -/
abbrev FS := List (String × List Nat)

/-- Model of `stream_hash`: pick the algorithm from the prefix of the stored
hash (the part before the first colon) and hash the file bytes; an
unrecognized prefix is an error carried as the skip detail. -/
def stream_hash (bytes : List Nat) (expected_hash : String) (b3 : List Nat → String) :
    Except String String :=
  let algo := String.mk (expected_hash.data.takeWhile fun c => c ≠ ':')
  if algo = "sha256" then .ok ("sha256:" ++ sha256HexString bytes)
  else if algo = "blake3" then .ok ("blake3:" ++ b3 bytes)
  else .error ("unsupported algorithm: " ++ algo)

inductive MemberOutcome where
  | verifiedM
  | failedM (f : MemberFailure)
  | skippedM (s : MemberSkip)
deriving DecidableEq

/-- The hashing tail of the member loop body (after existence and size have
been checked): stream-hash and compare, or skip on a hashing error. -/
def checkMemberHash (member_path expected_hash : String) (expected_size : Option Nat)
    (bytes : List Nat) (b3 : List Nat → String) : MemberOutcome :=
  match stream_hash bytes expected_hash b3 with
  | .ok actual =>
    if actual = expected_hash then .verifiedM
    else .failedM ⟨member_path, "HASH_MISMATCH", some expected_hash, some actual,
                   expected_size, some bytes.length⟩
  | .error e => .skippedM ⟨member_path, "IO_ERROR", e⟩

/-- One iteration of the member-verification loop: existence, size, then
stream hash (src/verify/members.rs, the body of `verify_members`). -/
def checkMember (fs : FS) (b3 : List Nat → String) (member : Json) : MemberOutcome :=
  let member_path := ((jsonGet member "path").bind asStr).getD ""
  let expected_hash := ((jsonGet member "bytes_hash").bind asStr).getD ""
  let expected_size := (jsonGet member "size").bind asU64
  match assocLookup fs member_path with
  | none => .failedM ⟨member_path, "MISSING", some expected_hash, none, expected_size, none⟩
  | some bytes =>
    match expected_size with
    | some exp_size =>
      if bytes.length ≠ exp_size then
        .failedM ⟨member_path, "SIZE_MISMATCH", some expected_hash, none,
                  some exp_size, some bytes.length⟩
      else checkMemberHash member_path expected_hash expected_size bytes b3
    | none => checkMemberHash member_path expected_hash expected_size bytes b3

/-- Model of `verify_members`: run the loop over the lockfile's `members`
array in order and aggregate counts and reports. -/
def verify_members (fs : FS) (b3 : List Nat → String) (lockfile_json : Json)
    (root : String) : MembersResult :=
  let members := ((jsonGet lockfile_json "members").bind asArray).getD []
  let outcomes := members.map (checkMember fs b3)
  let failures := outcomes.filterMap fun o =>
    match o with | .failedM f => some f | _ => none
  let skips := outcomes.filterMap fun o =>
    match o with | .skippedM s => some s | _ => none
  let verified := (outcomes.filter fun o =>
    match o with | .verifiedM => true | _ => false).length
  { root := root
    checked := members.length
    verified := verified
    failed := failures.length
    skipped := skips.length
    failures := failures
    skips := skips }

/-- Model of `members_outcome`: map the aggregate to (outcome, exit code). -/
def members_outcome (result : MembersResult) (strict : Bool) : String × Nat :=
  if result.failed > 0 then ("VERIFY_FAILED", 1)
  else if result.skipped > 0 then
    if strict then ("VERIFY_FAILED", 1) else ("VERIFY_PARTIAL", 1)
  else ("VERIFY_OK", 0)

-- ===========================================================================
-- Lockfile shape validation for verify (src/verify/mod.rs)
-- ===========================================================================

inductive VerifyRefusal where
  | badLockfileMissingFields (missing : List String)
  | unsupportedVersion (version : String)
  | absolutePath (member_index : Nat) (member_path : String)
  | traversal (member_index : Nat) (member_path : String)
  | unknownAlgorithm (member_path : String) (algorithm : String)
deriving DecidableEq

/-- Model of Rust `str::split(sep)`: all separator-delimited segments,
including empty ones. -/
def splitCharsAux (sep : Char) : List Char → List Char → List String
  | [], cur => [String.mk cur.reverse]
  | c :: cs, cur =>
    if c = sep then String.mk cur.reverse :: splitCharsAux sep cs []
    else splitCharsAux sep cs (c :: cur)

/-- Split a string on a separator character. -/
def splitSegs (sep : Char) (s : String) : List String := splitCharsAux sep s.data []

/-- The supported lockfile versions on the verify path. -/
def SUPPORTED_VERSIONS : List String := ["lock.v0"]

/-- The supported hash algorithm prefixes on the verify path. -/
def SUPPORTED_ALGORITHMS : List String := ["sha256", "blake3"]

/-- The per-member shape checks of `validate_lockfile_json`: absolute path,
traversal, then the algorithm prefix — the latter only when `bytes_hash` is
present as a string. -/
def member_path_refusal (i : Nat) (member : Json) : Option VerifyRefusal :=
  let path := ((jsonGet member "path").bind asStr).getD ""
  if path.data.head? = some '/' ∨ path.data.head? = some '\\' then
    some (.absolutePath i path)
  else if (splitSegs '/' path).contains ".." ∨ (splitSegs '\\' path).contains ".." then
    some (.traversal i path)
  else
    match (jsonGet member "bytes_hash").bind asStr with
    | some hash =>
      let algo := String.mk (hash.data.takeWhile fun c => c ≠ ':')
      if algo ∈ SUPPORTED_ALGORITHMS then none
      else some (.unknownAlgorithm path algo)
    | none => none

/-- Scan the members in order, returning the first shape refusal. -/
def firstMemberRefusal : Nat → List Json → Option VerifyRefusal
  | _, [] => none
  | i, m :: rest =>
    match member_path_refusal i m with
    | some r => some r
    | none => firstMemberRefusal (i + 1) rest

/-- Model of `validate_lockfile_json` applied to the parsed value: required
fields, version gate, then the member path and algorithm checks. -/
def validate_lockfile_json (value : Json) : Except VerifyRefusal Json :=
  let missing :=
    (if (jsonGet value "version").isNone then ["version"] else []) ++
    (if (jsonGet value "lock_hash").isNone then ["lock_hash"] else []) ++
    (if (jsonGet value "members").isNone then ["members"] else [])
  if missing.isEmpty = false then .error (.badLockfileMissingFields missing)
  else
    let version := ((jsonGet value "version").bind asStr).getD ""
    if version ∈ SUPPORTED_VERSIONS then
      match (jsonGet value "members").bind asArray with
      | some members =>
        match firstMemberRefusal 0 members with
        | some r => .error r
        | none => .ok value
      | none => .ok value
    else .error (.unsupportedVersion version)

-- ===========================================================================
-- Verify orchestration, L1 gate (src/verify/mod.rs, steps 4-8 of run_verify)
-- ===========================================================================

structure LockHashDetail where
  stored : String
  computed : String
  valid : Bool
deriving DecidableEq

/-- Modelled from the spec: `self_hash::verify_lock_hash_detail` is called
from `run_verify` (src/verify/mod.rs) but its definition is not among the
provided sources.  Per spec section 4.2, the raw-JSON verification variant
parses the text, blanks `lock_hash`, canonicalizes, digests with SHA-256,
and compares the result to the originally stored `lock_hash`; the detail
carries the stored and computed values and their equality. -/
def verify_lock_hash_detail (value : Json) : LockHashDetail :=
  let stored := ((jsonGet value "lock_hash").bind asStr).getD ""
  let blanked := jsonInsert value "lock_hash" (Json.str "")
  let computed := "sha256:" ++ sha256HexString (strBytes (to_canonical_json blanked))
  { stored := stored, computed := computed, valid := stored == computed }

structure VerifyRunResult where
  outcome : String
  lock_hash : LockHashDetail
  members : Option MembersResult
  exit_code : Nat
deriving DecidableEq

/-- Steps 4 and 5 of `run_verify`, for a lockfile that already passed the
shape check and whose `--root` (when given) exists: recompute the self-hash;
when invalid, report `VERIFY_FAILED` with null members and exit 1 without
touching the filesystem; otherwise run member verification when a root is
given, else `VERIFY_OK`. -/
def run_verify_checked (b3 : List Nat → String) (value : Json) (root : Option FS)
    (root_name : String) (strict : Bool) : VerifyRunResult :=
  let detail := verify_lock_hash_detail value
  if !detail.valid then
    { outcome := "VERIFY_FAILED", lock_hash := detail, members := none, exit_code := 1 }
  else
    match root with
    | some fs =>
      let mr := verify_members fs b3 value root_name
      let oe := members_outcome mr strict
      { outcome := oe.1, lock_hash := detail, members := some mr, exit_code := oe.2 }
    | none =>
      { outcome := "VERIFY_OK", lock_hash := detail, members := none, exit_code := 0 }

-- ===========================================================================
-- Witness ledger append path (src/witness/mod.rs)
-- ===========================================================================

structure WitnessAppendInput where
  outcome : String
  exit_code : Nat
  output_bytes : List Nat
  params : Json
  inputs : Json
  version : String
  ts : String

/-- Model of `read_last_record_id`: the `id` string of the last record line
of the ledger, if any.  The ledger is modelled as the sequence of its
parsed record lines (every append writes exactly one non-empty line, and
parsing a line the tool itself serialized returns the recorded value). -/
def read_last_record_id (ledger : List Json) : Option String :=
  ledger.getLast?.bind fun r => (jsonGet r "id").bind asStr

/-- Model of `append_witness_record_to`: read the previous record's id,
build the record with `id = ""` in the fixed field order of the source,
compute the record id as the BLAKE3 digest of that serialization, substitute
it, and append.  The BLAKE3 digest is an opaque parameter `b3`. -/
def append_witness_record_to (b3 : List Nat → String) (ledger : List Json)
    (p : WitnessAppendInput) : List Json :=
  let prev := read_last_record_id ledger
  let output_hash := "blake3:" ++ b3 p.output_bytes
  let pre := Json.obj
    [("id", .str ""), ("tool", .str "lock"), ("version", .str p.version),
     ("binary_hash", .null), ("inputs", p.inputs), ("params", p.params),
     ("outcome", .str p.outcome), ("exit_code", .num p.exit_code),
     ("output_hash", .str output_hash), ("prev", optStrJson prev), ("ts", .str p.ts)]
  let record_id := "blake3:" ++ b3 (strBytes (serializeJson pre))
  ledger ++ [jsonInsert pre "id" (.str record_id)]

/-- A sequence of successful appends against the same ledger, starting from
an empty ledger file. -/
def run_witness_appends (b3 : List Nat → String) (ps : List WitnessAppendInput) : List Json :=
  ps.foldl (append_witness_record_to b3) []

-- ===========================================================================
-- Order facts for the key comparator
-- ===========================================================================

theorem char_toNat_inj {a b : Char} (h : a.toNat = b.toNat) : a = b :=
  Char.ext (UInt32.ext h)

theorem codeLt_cons_eq (x y : Char) (u v : List Char) :
    codeLtChars (x :: u) (y :: v) =
      if x.toNat < y.toNat then true
      else if y.toNat < x.toNat then false
      else codeLtChars u v := rfl

theorem codeLt_trichotomy : ∀ a b : List Char,
    (codeLtChars a b = true ∧ codeLtChars b a = false) ∨
    (codeLtChars a b = false ∧ codeLtChars b a = true) ∨
    (codeLtChars a b = false ∧ codeLtChars b a = false ∧ a = b)
  | [], [] => by simp [codeLtChars]
  | [], _ :: _ => by simp [codeLtChars]
  | _ :: _, [] => by simp [codeLtChars]
  | a :: as, b :: bs => by
    rw [codeLt_cons_eq, codeLt_cons_eq]
    rcases Nat.lt_trichotomy a.toNat b.toNat with h | h | h
    · left
      exact ⟨by rw [if_pos h], by rw [if_neg (by omega), if_pos h]⟩
    · have hab : a = b := char_toNat_inj h
      rw [if_neg (by omega), if_neg (by omega), if_neg (by omega), if_neg (by omega)]
      rcases codeLt_trichotomy as bs with ⟨h1, h2⟩ | ⟨h1, h2⟩ | ⟨h1, h2, h3⟩
      · exact Or.inl ⟨h1, h2⟩
      · exact Or.inr (Or.inl ⟨h1, h2⟩)
      · exact Or.inr (Or.inr ⟨h1, h2, by rw [hab, h3]⟩)
    · right; left
      exact ⟨by rw [if_neg (by omega), if_pos h], by rw [if_pos h]⟩

theorem codeLt_trans : ∀ a b c : List Char,
    codeLtChars a b = true → codeLtChars b c = true → codeLtChars a c = true
  | [], [], _ => by intro h _; exact absurd h (by simp [codeLtChars])
  | [], _ :: _, [] => by intro _ h; exact absurd h (by simp [codeLtChars])
  | [], _ :: _, _ :: _ => by intro _ _; simp [codeLtChars]
  | _ :: _, [], _ => by intro h _; exact absurd h (by simp [codeLtChars])
  | _ :: _, _ :: _, [] => by intro _ h; exact absurd h (by simp [codeLtChars])
  | a :: as, b :: bs, c :: cs => by
    rw [codeLt_cons_eq, codeLt_cons_eq, codeLt_cons_eq]
    intro h1 h2
    by_cases hab : a.toNat < b.toNat <;> by_cases hbc : b.toNat < c.toNat
    · rw [if_pos (by omega)]
    · rw [if_neg hbc] at h2
      by_cases hcb : c.toNat < b.toNat
      · rw [if_pos hcb] at h2; cases h2
      · rw [if_pos (by omega)]
    · rw [if_neg hab] at h1
      by_cases hba : b.toNat < a.toNat
      · rw [if_pos hba] at h1; cases h1
      · rw [if_pos (by omega)]
    · rw [if_neg hab] at h1
      rw [if_neg hbc] at h2
      by_cases hba : b.toNat < a.toNat
      · rw [if_pos hba] at h1; cases h1
      · by_cases hcb : c.toNat < b.toNat
        · rw [if_pos hcb] at h2; cases h2
        · rw [if_neg hba] at h1
          rw [if_neg hcb] at h2
          rw [if_neg (by omega), if_neg (by omega)]
          exact codeLt_trans as bs cs h1 h2

theorem strLt_asymm {a b : String} (h : strLt a b = true) : strLt b a = false := by
  unfold strLt at h ⊢
  rcases codeLt_trichotomy a.data b.data with ⟨_, h2⟩ | ⟨h1, _⟩ | ⟨h1, _, _⟩ <;> simp_all

theorem strLt_irrefl (a : String) : strLt a a = false := by
  unfold strLt
  rcases codeLt_trichotomy a.data a.data with ⟨h1, h2⟩ | ⟨h1, _⟩ | ⟨h1, _, _⟩ <;> simp_all

theorem strLt_eq_of_not {a b : String} (h1 : strLt a b = false) (h2 : strLt b a = false) :
    a = b := by
  unfold strLt at h1 h2
  rcases codeLt_trichotomy a.data b.data with ⟨ha, _⟩ | ⟨_, hb⟩ | ⟨_, _, hd⟩
  · rw [ha] at h1; cases h1
  · rw [hb] at h2; cases h2
  · exact String.ext hd

theorem strLt_lt_of_ne {a b : String} (hne : a ≠ b) :
    strLt a b = true ∨ strLt b a = true := by
  by_cases h1 : strLt a b = true
  · exact Or.inl h1
  · by_cases h2 : strLt b a = true
    · exact Or.inr h2
    · exact absurd (strLt_eq_of_not (by simpa using h1) (by simpa using h2)) hne

theorem strLt_trans {a b c : String} (h1 : strLt a b = true) (h2 : strLt b c = true) :
    strLt a c = true :=
  codeLt_trans a.data b.data c.data h1 h2

theorem strLt_ne {a b : String} (h : strLt a b = true) : a ≠ b := by
  intro he
  rw [he, strLt_irrefl] at h
  cases h

-- ===========================================================================
-- Sorted association-map facts for the canonical encoder
-- ===========================================================================

/-- Strictly ascending keys, the invariant of the BTreeMap model. -/
def KeysStrictSorted (l : List (String × Json)) : Prop :=
  List.Pairwise (fun p q => strLt p.1 q.1 = true) l

theorem assocFind_cons (k : String) (v : Json) (rest : List (String × Json)) (t : String) :
    assocFind ((k, v) :: rest) t = if k = t then some v else assocFind rest t := rfl

theorem mem_insertSorted : ∀ {m : List (String × Json)} {kv p : String × Json},
    p ∈ insertSortedEntry m kv → p = kv ∨ p ∈ m := by
  intro m
  induction m with
  | nil =>
    intro kv p hp
    simp only [insertSortedEntry] at hp
    rcases List.mem_singleton.mp hp with h
    exact Or.inl h
  | cons head rest ih =>
    intro kv p hp
    obtain ⟨k, v⟩ := head
    obtain ⟨k1, v1⟩ := kv
    simp only [insertSortedEntry] at hp
    by_cases h1 : strLt k1 k = true
    · simp only [if_pos h1] at hp
      rcases List.mem_cons.mp hp with h | h
      · exact Or.inl h
      · exact Or.inr h
    · simp only [if_neg h1] at hp
      by_cases h2 : strLt k k1 = true
      · simp only [if_pos h2] at hp
        rcases List.mem_cons.mp hp with h | h
        · exact Or.inr (List.mem_cons.mpr (Or.inl h))
        · rcases ih h with h' | h'
          · exact Or.inl h'
          · exact Or.inr (List.mem_cons.mpr (Or.inr h'))
      · simp only [if_neg h2] at hp
        rcases List.mem_cons.mp hp with h | h
        · exact Or.inl h
        · exact Or.inr (List.mem_cons.mpr (Or.inr h))

theorem insertSorted_sorted {m : List (String × Json)} (kv : String × Json)
    (h : KeysStrictSorted m) : KeysStrictSorted (insertSortedEntry m kv) := by
  induction m with
  | nil => simp [insertSortedEntry, KeysStrictSorted]
  | cons head rest ih =>
    obtain ⟨k, v⟩ := head
    obtain ⟨k1, v1⟩ := kv
    cases h with
    | cons hk hrest =>
      simp only [insertSortedEntry]
      by_cases h1 : strLt k1 k = true
      · rw [if_pos h1]
        refine List.Pairwise.cons ?_ (List.Pairwise.cons hk hrest)
        intro q hq
        rcases List.mem_cons.mp hq with h' | h'
        · rw [h']; exact h1
        · exact strLt_trans h1 (hk q h')
      · rw [if_neg h1]
        by_cases h2 : strLt k k1 = true
        · rw [if_pos h2]
          refine List.Pairwise.cons ?_ (ih hrest)
          intro q hq
          rcases mem_insertSorted hq with h' | h'
          · rw [h']; exact h2
          · exact hk q h'
        · rw [if_neg h2]
          have hkk : k = k1 := strLt_eq_of_not (by simpa using h2) (by simpa using h1)
          refine List.Pairwise.cons ?_ hrest
          intro q hq
          rw [← hkk]
          exact hk q hq

theorem assocFind_insertSorted (m : List (String × Json)) (kv : String × Json) (t : String) :
    assocFind (insertSortedEntry m kv) t = if kv.1 = t then some kv.2 else assocFind m t := by
  obtain ⟨k1, v1⟩ := kv
  induction m with
  | nil => rfl
  | cons head rest ih =>
    obtain ⟨k, v⟩ := head
    simp only [insertSortedEntry]
    by_cases h1 : strLt k1 k = true
    · rw [if_pos h1, assocFind_cons, assocFind_cons]
    · rw [if_neg h1]
      by_cases h2 : strLt k k1 = true
      · have hkne : k ≠ k1 := strLt_ne h2
        rw [if_pos h2, assocFind_cons, assocFind_cons, ih]
        by_cases hk : k = t <;> by_cases hv : k1 = t <;> simp only [if_pos, if_neg, hk, hv]
        · exact absurd (hk.trans hv.symm) hkne
        · simp
        · simp
        · simp
      · have hkk : k = k1 := strLt_eq_of_not (by simpa using h2) (by simpa using h1)
        subst hkk
        rw [if_neg h2, assocFind_cons, assocFind_cons]
        by_cases hv : k = t <;> simp [hv]

theorem foldl_insert_sorted (l : List (String × Json)) :
    ∀ m : List (String × Json), KeysStrictSorted m →
      KeysStrictSorted (l.foldl insertSortedEntry m) := by
  induction l with
  | nil => intro m hm; exact hm
  | cons kv rest ih =>
    intro m hm
    exact ih (insertSortedEntry m kv) (insertSorted_sorted kv hm)

theorem btreeCollect_sorted (l : List (String × Json)) : KeysStrictSorted (btreeCollect l) :=
  foldl_insert_sorted l [] List.Pairwise.nil

theorem assocFind_append (l1 l2 : List (String × Json)) (t : String) :
    assocFind (l1 ++ l2) t = (assocFind l1 t).or (assocFind l2 t) := by
  induction l1 with
  | nil => simp [assocFind]
  | cons head rest ih =>
    obtain ⟨k, v⟩ := head
    rw [List.cons_append, assocFind_cons, assocFind_cons]
    by_cases h : k = t
    · simp [h]
    · simp [h, ih]

/-- The last binding of a key in an unsorted entry sequence (later entries
shadow earlier ones, as in a map collect). -/
def lastFind (l : List (String × Json)) (t : String) : Option Json :=
  assocFind l.reverse t

theorem assocFind_foldl_insert (l : List (String × Json)) :
    ∀ (m : List (String × Json)) (t : String),
      assocFind (l.foldl insertSortedEntry m) t = (lastFind l t).or (assocFind m t) := by
  induction l with
  | nil => intro m t; simp [lastFind, assocFind]
  | cons kv rest ih =>
    intro m t
    rw [List.foldl_cons, ih]
    unfold lastFind
    rw [List.reverse_cons, assocFind_append, assocFind_insertSorted]
    obtain ⟨k1, v1⟩ := kv
    by_cases h : k1 = t
    · simp [assocFind_cons, h, Option.or]
      cases assocFind rest.reverse t <;> rfl
    · simp only [assocFind_cons, if_neg h, assocFind]
      cases assocFind rest.reverse t <;> rfl

theorem assocFind_btreeCollect (l : List (String × Json)) (t : String) :
    assocFind (btreeCollect l) t = lastFind l t := by
  unfold btreeCollect
  rw [assocFind_foldl_insert]
  cases lastFind l t <;> rfl

theorem assocFind_eq_none_of_forall_ne {l : List (String × Json)} {t : String}
    (h : ∀ p ∈ l, p.1 ≠ t) : assocFind l t = none := by
  induction l with
  | nil => rfl
  | cons head rest ih =>
    obtain ⟨k, v⟩ := head
    rw [assocFind_cons, if_neg (h (k, v) (List.mem_cons_self _ _))]
    exact ih fun p hp => h p (List.mem_cons.mpr (Or.inr hp))

theorem sorted_assoc_ext : ∀ {l1 l2 : List (String × Json)},
    KeysStrictSorted l1 → KeysStrictSorted l2 →
    (∀ t, assocFind l1 t = assocFind l2 t) → l1 = l2 := by
  intro l1
  induction l1 with
  | nil =>
    intro l2 _ _ hf
    cases l2 with
    | nil => rfl
    | cons head rest =>
      obtain ⟨k, v⟩ := head
      have := hf k
      rw [assocFind_cons, if_pos rfl] at this
      cases this
  | cons head rest ih =>
    intro l2 h1 h2 hf
    obtain ⟨k1, v1⟩ := head
    cases l2 with
    | nil =>
      have := hf k1
      rw [assocFind_cons, if_pos rfl] at this
      cases this
    | cons head2 rest2 =>
      obtain ⟨k2, v2⟩ := head2
      cases h1 with
      | cons hk1 hrest1 =>
        cases h2 with
        | cons hk2 hrest2 =>
          have hkeq : k1 = k2 := by
            by_contra hne
            rcases strLt_lt_of_ne hne with hlt | hlt
            · have hnone : assocFind ((k2, v2) :: rest2) k1 = none := by
                apply assocFind_eq_none_of_forall_ne
                intro p hp
                rcases List.mem_cons.mp hp with h | h
                · rw [h]
                  exact fun he => (strLt_ne hlt) he.symm
                · exact fun he =>
                    (strLt_ne (strLt_trans hlt (hk2 p h))) he.symm
              have := hf k1
              rw [assocFind_cons, if_pos rfl, hnone] at this
              cases this
            · have hnone : assocFind ((k1, v1) :: rest) k2 = none := by
                apply assocFind_eq_none_of_forall_ne
                intro p hp
                rcases List.mem_cons.mp hp with h | h
                · rw [h]
                  exact fun he => (strLt_ne hlt) he.symm
                · exact fun he =>
                    (strLt_ne (strLt_trans hlt (hk1 p h))) he.symm
              have := hf k2
              rw [hnone, assocFind_cons, if_pos rfl] at this
              cases this
          subst hkeq
          have hveq : v1 = v2 := by
            have := hf k1
            rw [assocFind_cons, if_pos rfl, assocFind_cons, if_pos rfl] at this
            exact Option.some.inj this
          subst hveq
          have htails : ∀ t, assocFind rest t = assocFind rest2 t := by
            intro t
            by_cases ht : k1 = t
            · subst ht
              rw [assocFind_eq_none_of_forall_ne fun p hp =>
                    fun he => (strLt_ne (hk1 p hp)) he.symm,
                  assocFind_eq_none_of_forall_ne fun p hp =>
                    fun he => (strLt_ne (hk2 p hp)) he.symm]
            · have := hf t
              rw [assocFind_cons, if_neg ht, assocFind_cons, if_neg ht] at this
              exact this
          rw [ih hrest1 hrest2 htails]

theorem foldl_insert_congr {l1 l2 : List (String × Json)}
    (h : btreeCollect l1 = btreeCollect l2) (m : List (String × Json))
    (hm : KeysStrictSorted m) :
    l1.foldl insertSortedEntry m = l2.foldl insertSortedEntry m := by
  apply sorted_assoc_ext (foldl_insert_sorted _ _ hm) (foldl_insert_sorted _ _ hm)
  intro t
  rw [assocFind_foldl_insert, assocFind_foldl_insert, ← assocFind_btreeCollect,
    ← assocFind_btreeCollect, h]

theorem mem_foldl_insert : ∀ (l : List (String × Json)) (m : List (String × Json))
    (p : String × Json), p ∈ l.foldl insertSortedEntry m → p ∈ m ∨ p ∈ l := by
  intro l
  induction l with
  | nil => intro m p hp; exact Or.inl hp
  | cons kv rest ih =>
    intro m p hp
    rw [List.foldl_cons] at hp
    rcases ih (insertSortedEntry m kv) p hp with h | h
    · rcases mem_insertSorted h with h' | h'
      · exact Or.inr (List.mem_cons.mpr (Or.inl h'))
      · exact Or.inl h'
    · exact Or.inr (List.mem_cons.mpr (Or.inr h))

theorem mem_btreeCollect {l : List (String × Json)} {p : String × Json}
    (hp : p ∈ btreeCollect l) : p ∈ l := by
  rcases mem_foldl_insert l [] p hp with h | h
  · cases h
  · exact h

-- ===========================================================================
-- Structural equality modulo object key order, and canonicality
-- ===========================================================================

/-- Structural equality of JSON values modulo the order of object entries:
generated by reflexivity, congruence on array items and object entry
values, adjacent transposition of distinct-keyed object entries, and
transitivity.  On objects without duplicate keys (the only objects serde
maps can hold) this is exactly equality up to recursive re-ordering of
object entries. -/
inductive JEquiv : Json → Json → Prop where
  | refl (v : Json) : JEquiv v v
  | arrCons {x y : Json} {xs ys : List Json} :
      JEquiv x y → JEquiv (.arr xs) (.arr ys) → JEquiv (.arr (x :: xs)) (.arr (y :: ys))
  | objCons {v w : Json} {es fs : List (String × Json)} (k : String) :
      JEquiv v w → JEquiv (.obj es) (.obj fs) →
      JEquiv (.obj ((k, v) :: es)) (.obj ((k, w) :: fs))
  | objSwap {k1 k2 : String} {v1 v2 : Json} {es : List (String × Json)} :
      k1 ≠ k2 →
      JEquiv (.obj ((k1, v1) :: (k2, v2) :: es)) (.obj ((k2, v2) :: (k1, v1) :: es))
  | trans {a b c : Json} : JEquiv a b → JEquiv b c → JEquiv a c

theorem sortJson_eq_of_jequiv {a b : Json} (h : JEquiv a b) :
    sort_json_value a = sort_json_value b := by
  induction h with
  | refl v => rfl
  | arrCons hxy hxs ihx ihl =>
    simp only [sort_json_value, sortItems] at ihl ⊢
    rw [ihx, (Json.arr.injEq _ _).mp ihl]
  | objCons k hvw hef ihv ihe =>
    simp only [sort_json_value, sortEntryValues] at ihe ⊢
    have he : btreeCollect (sortEntryValues _) = btreeCollect (sortEntryValues _) :=
      (Json.obj.injEq _ _).mp ihe
    rw [ihv]
    simp only [btreeCollect, List.foldl_cons]
    rw [foldl_insert_congr he _ (insertSorted_sorted _ List.Pairwise.nil)]
  | objSwap hne =>
    rename_i k1 k2 v1 v2 es
    simp only [sort_json_value, sortEntryValues]
    simp only [btreeCollect, List.foldl_cons]
    have hseed :
        insertSortedEntry (insertSortedEntry [] (k1, sort_json_value v1)) (k2, sort_json_value v2) =
        insertSortedEntry (insertSortedEntry [] (k2, sort_json_value v2)) (k1, sort_json_value v1) := by
      apply sorted_assoc_ext
      · exact insertSorted_sorted _ (insertSorted_sorted _ List.Pairwise.nil)
      · exact insertSorted_sorted _ (insertSorted_sorted _ List.Pairwise.nil)
      · intro t
        rw [assocFind_insertSorted, assocFind_insertSorted, assocFind_insertSorted,
          assocFind_insertSorted]
        by_cases h1 : k1 = t <;> by_cases h2 : k2 = t <;>
          simp only [if_pos, if_neg, h1, h2]
        · exact absurd (h1.trans h2.symm) hne
        · simp
        · simp
        · simp
    rw [hseed]
  | trans h1 h2 ih1 ih2 => exact ih1.trans ih2

/-- Arrays are canonicalized elementwise, preserving order. -/
theorem sortItems_eq_map : ∀ l : List Json, sortItems l = l.map sort_json_value := by
  intro l
  induction l with
  | nil => rfl
  | cons x xs ih => simp only [sortItems, List.map_cons, ih]

/-- Keys strictly sorted by code-point order at every nesting depth. -/
inductive CanonicalKeys : Json → Prop where
  | null : CanonicalKeys .null
  | bool (b : Bool) : CanonicalKeys (.bool b)
  | num (n : Int) : CanonicalKeys (.num n)
  | str (s : String) : CanonicalKeys (.str s)
  | arr {items : List Json} :
      (∀ x ∈ items, CanonicalKeys x) → CanonicalKeys (.arr items)
  | obj {entries : List (String × Json)} :
      KeysStrictSorted entries → (∀ p ∈ entries, CanonicalKeys p.2) →
      CanonicalKeys (.obj entries)

mutual

theorem canonKeys_sortJson : ∀ v : Json, CanonicalKeys (sort_json_value v)
  | .null => CanonicalKeys.null
  | .bool b => CanonicalKeys.bool b
  | .num n => CanonicalKeys.num n
  | .str s => CanonicalKeys.str s
  | .arr items =>
    CanonicalKeys.arr (fun x hx => canonKeys_sortItems items x hx)
  | .obj entries =>
    CanonicalKeys.obj (btreeCollect_sorted _)
      (fun p hp => canonKeys_sortEntries entries p (mem_btreeCollect hp))

theorem canonKeys_sortItems : ∀ (l : List Json) (x : Json), x ∈ sortItems l → CanonicalKeys x
  | [], x => by intro h; cases h
  | y :: ys, x => by
    intro hx
    rcases List.mem_cons.mp hx with h | h
    · rw [h]; exact canonKeys_sortJson y
    · exact canonKeys_sortItems ys x h

theorem canonKeys_sortEntries : ∀ (l : List (String × Json)) (p : String × Json),
    p ∈ sortEntryValues l → CanonicalKeys p.2
  | [], p => by intro h; cases h
  | (k, v) :: rest, p => by
    intro hp
    rcases List.mem_cons.mp hp with h | h
    · rw [h]; exact canonKeys_sortJson v
    · exact canonKeys_sortEntries rest p h

end

theorem digitChar_ne_nl : ∀ n : Nat, digitChar n ≠ '\n'
  | 0 => by decide
  | 1 => by decide
  | 2 => by decide
  | 3 => by decide
  | 4 => by decide
  | 5 => by decide
  | 6 => by decide
  | 7 => by decide
  | 8 => by decide
  | n + 9 => (by decide : ('9' : Char) ≠ '\n')

theorem hexDigitChar_ne_nl : ∀ n : Nat, hexDigitChar n ≠ '\n'
  | 0 => by decide
  | 1 => by decide
  | 2 => by decide
  | 3 => by decide
  | 4 => by decide
  | 5 => by decide
  | 6 => by decide
  | 7 => by decide
  | 8 => by decide
  | 9 => by decide
  | 10 => by decide
  | 11 => by decide
  | 12 => by decide
  | 13 => by decide
  | 14 => by decide
  | n + 15 => (by decide : ('f' : Char) ≠ '\n')

theorem natDecAux_no_nl : ∀ (fuel n : Nat), '\n' ∉ natDecAux fuel n := by
  intro fuel
  induction fuel with
  | zero => intro n h; cases h
  | succ f ih =>
    intro n h
    simp only [natDecAux] at h
    by_cases hn : n < 10
    · rw [if_pos hn] at h
      rcases List.mem_singleton.mp h with h'
      exact digitChar_ne_nl n h'.symm
    · rw [if_neg hn] at h
      rcases List.mem_append.mp h with h' | h'
      · exact ih _ h'
      · rcases List.mem_singleton.mp h' with h''
        exact digitChar_ne_nl _ h''.symm

theorem natDec_no_nl (n : Nat) : '\n' ∉ (natDec n).data :=
  natDecAux_no_nl _ _

theorem intDec_no_nl (n : Int) : '\n' ∉ (intDec n).data := by
  unfold intDec
  by_cases h : n < 0
  · rw [if_pos h, String.data_append]
    intro hm
    rcases List.mem_append.mp hm with h' | h'
    · cases List.mem_singleton.mp h'
    · exact natDec_no_nl _ h'
  · rw [if_neg h]
    exact natDec_no_nl _

theorem escapeChar_no_nl (c x : Char) (hx : x ∈ escapeChar c) : x ≠ '\n' := by
  unfold escapeChar at hx
  split_ifs at hx with h1 h2 h3 h4 h5 h6 h7 h8
  case pos =>
    rcases List.mem_cons.mp hx with rfl | hx
    · decide
    rcases List.mem_singleton.mp hx with rfl
    decide
  case pos =>
    rcases List.mem_cons.mp hx with rfl | hx
    · decide
    rcases List.mem_singleton.mp hx with rfl
    decide
  case pos =>
    rcases List.mem_cons.mp hx with rfl | hx
    · decide
    rcases List.mem_singleton.mp hx with rfl
    decide
  case pos =>
    rcases List.mem_cons.mp hx with rfl | hx
    · decide
    rcases List.mem_singleton.mp hx with rfl
    decide
  case pos =>
    rcases List.mem_cons.mp hx with rfl | hx
    · decide
    rcases List.mem_singleton.mp hx with rfl
    decide
  case pos =>
    rcases List.mem_cons.mp hx with rfl | hx
    · decide
    rcases List.mem_singleton.mp hx with rfl
    decide
  case pos =>
    rcases List.mem_cons.mp hx with rfl | hx
    · decide
    rcases List.mem_singleton.mp hx with rfl
    decide
  case pos =>
    rcases List.mem_cons.mp hx with rfl | hx
    · decide
    rcases List.mem_cons.mp hx with rfl | hx
    · decide
    rcases List.mem_cons.mp hx with rfl | hx
    · decide
    rcases List.mem_cons.mp hx with rfl | hx
    · decide
    rcases List.mem_cons.mp hx with rfl | hx
    · exact hexDigitChar_ne_nl _
    rcases List.mem_singleton.mp hx with rfl
    exact hexDigitChar_ne_nl _
  case neg =>
    rcases List.mem_singleton.mp hx with rfl
    intro he
    rw [he] at h5
    exact h5 (by decide)

theorem escapeString_no_nl (s : String) : '\n' ∉ (escapeString s).data := by
  unfold escapeString
  intro h
  rcases List.mem_cons.mp h with h' | h'
  · cases h'
  · rcases List.mem_append.mp h' with h'' | h''
    · rcases List.mem_flatMap.mp h'' with ⟨c, _, hc⟩
      exact escapeChar_no_nl c _ hc rfl
    · cases List.mem_singleton.mp h''

mutual

theorem serializeJson_no_nl : ∀ v : Json, '\n' ∉ (serializeJson v).data
  | .null => by decide
  | .bool true => by decide
  | .bool false => by decide
  | .num n => intDec_no_nl n
  | .str s => escapeString_no_nl s
  | .arr items => by
    intro h
    simp only [serializeJson, String.data_append] at h
    rcases List.mem_append.mp h with h' | h'
    · rcases List.mem_append.mp h' with h'' | h''
      · cases List.mem_singleton.mp h''
      · exact serializeItems_no_nl items h''
    · cases List.mem_singleton.mp h'
  | .obj entries => by
    intro h
    simp only [serializeJson, String.data_append] at h
    rcases List.mem_append.mp h with h' | h'
    · rcases List.mem_append.mp h' with h'' | h''
      · cases List.mem_singleton.mp h''
      · exact serializeEntries_no_nl entries h''
    · cases List.mem_singleton.mp h'

theorem serializeItems_no_nl : ∀ l : List Json, '\n' ∉ (serializeItems l).data
  | [] => by decide
  | [x] => serializeJson_no_nl x
  | x :: y :: xs => by
    intro h
    simp only [serializeItems, String.data_append] at h
    rcases List.mem_append.mp h with h' | h'
    · rcases List.mem_append.mp h' with h'' | h''
      · exact serializeJson_no_nl x h''
      · cases List.mem_singleton.mp h''
    · exact serializeItems_no_nl (y :: xs) h'

theorem serializeEntries_no_nl : ∀ l : List (String × Json), '\n' ∉ (serializeEntries l).data
  | [] => by decide
  | [(k, v)] => by
    intro h
    simp only [serializeEntries, String.data_append] at h
    rcases List.mem_append.mp h with h' | h'
    · rcases List.mem_append.mp h' with h'' | h''
      · exact escapeString_no_nl k h''
      · cases List.mem_singleton.mp h''
    · exact serializeJson_no_nl v h'
  | (k, v) :: e :: xs => by
    intro h
    simp only [serializeEntries, String.data_append] at h
    rcases List.mem_append.mp h with h' | h'
    · rcases List.mem_append.mp h' with h'' | h''
      · rcases List.mem_append.mp h'' with h3 | h3
        · rcases List.mem_append.mp h3 with h4 | h4
          · exact escapeString_no_nl k h4
          · cases List.mem_singleton.mp h4
        · exact serializeJson_no_nl v h3
      · cases List.mem_singleton.mp h''
    · exact serializeEntries_no_nl (e :: xs) h'

end

-- ===========================================================================
-- Sorting and permutation machinery for classification
-- ===========================================================================

theorem strLe_trans {x y z : String} (h1 : strLt y x = false) (h2 : strLt z y = false) :
    strLt z x = false := by
  by_contra h
  have hzx : strLt z x = true := by simpa using h
  rcases codeLt_trichotomy z.data y.data with ⟨hl, _⟩ | ⟨_, hl⟩ | ⟨_, _, hd⟩
  · rw [show strLt z y = codeLtChars z.data y.data from rfl] at h2
    rw [hl] at h2
    cases h2
  · have : strLt y x = true := strLt_trans hl hzx
    rw [this] at h1
    cases h1
  · have hyz : y = z := (String.ext hd).symm
    rw [← hyz] at hzx
    rw [hzx] at h1
    cases h1

instance : IsTotal Member memberLe :=
  ⟨fun a b => by
    unfold memberLe
    by_cases h : strLt b.path a.path = true
    · exact Or.inr (strLt_asymm h)
    · exact Or.inl (by simpa using h)⟩

instance : IsTrans Member memberLe :=
  ⟨fun a b c hab hbc => strLe_trans hab hbc⟩

instance : IsTotal SkippedEntry skippedLe :=
  ⟨fun a b => by
    unfold skippedLe
    by_cases h : strLt b.path a.path = true
    · exact Or.inr (strLt_asymm h)
    · exact Or.inl (by simpa using h)⟩

instance : IsTrans SkippedEntry skippedLe :=
  ⟨fun a b c hab hbc => strLe_trans hab hbc⟩

theorem eq_of_perm_sorted_nodup_key {α : Type} (key : α → String) {l1 l2 : List α}
    (hp : l1.Perm l2)
    (hs1 : l1.Sorted fun a b => strLt (key b) (key a) = false)
    (hs2 : l2.Sorted fun a b => strLt (key b) (key a) = false)
    (hn : (l1.map key).Nodup) : l1 = l2 := by
  haveI : IsAntisymm α (fun a b => strLt (key a) (key b) = true) :=
    ⟨fun a b h1 h2 => by
      have := strLt_asymm h1
      rw [this] at h2
      cases h2⟩
  have hn2 : (l2.map key).Nodup := (hp.map key).nodup_iff.mp hn
  apply List.eq_of_perm_of_sorted (r := fun a b => strLt (key a) (key b) = true) hp
  · have hne : List.Pairwise (fun a b => key a ≠ key b) l1 := List.pairwise_map.mp hn
    refine (hs1.and hne).imp ?_
    rintro a b ⟨hle, hab⟩
    rcases strLt_lt_of_ne hab with h | h
    · exact h
    · rw [h] at hle; cases hle
  · have hne : List.Pairwise (fun a b => key a ≠ key b) l2 := List.pairwise_map.mp hn2
    refine (hs2.and hne).imp ?_
    rintro a b ⟨hle, hab⟩
    rcases strLt_lt_of_ne hab with h | h
    · exact h
    · rw [h] at hle; cases hle

theorem classifySeq_mem_ok : ∀ {l : List InputRecord} {cs},
    classifySeq l = .ok cs → ∀ r ∈ l, ∃ c, record_class r = .ok c := by
  intro l
  induction l with
  | nil => intro cs _ r hr; cases hr
  | cons x rest ih =>
    intro cs h r hr
    unfold classifySeq at h
    cases hx : record_class x with
    | error e => rw [hx] at h; cases h
    | ok c =>
      rw [hx] at h
      cases hrest : classifySeq rest with
      | error e => rw [hrest] at h; cases h
      | ok cs' =>
        rcases List.mem_cons.mp hr with h' | h'
        · exact ⟨c, h' ▸ hx⟩
        · exact ih hrest r h'

theorem classifySeq_ok_of_forall : ∀ {l : List InputRecord},
    (∀ r ∈ l, ∃ c, record_class r = .ok c) → ∃ cs, classifySeq l = .ok cs := by
  intro l
  induction l with
  | nil => intro _; exact ⟨[], rfl⟩
  | cons x rest ih =>
    intro h
    obtain ⟨c, hc⟩ := h x (List.mem_cons_self _ _)
    obtain ⟨cs, hcs⟩ := ih fun r hr => h r (List.mem_cons.mpr (Or.inr hr))
    refine ⟨c :: cs, ?_⟩
    unfold classifySeq
    rw [hc, hcs]

theorem classifySeq_perm {l1 l2 : List InputRecord} (hp : l1.Perm l2) :
    ∀ {cs1 cs2}, classifySeq l1 = .ok cs1 → classifySeq l2 = .ok cs2 → cs1.Perm cs2 := by
  induction hp with
  | nil =>
    intro cs1 cs2 h1 h2
    cases h1; cases h2
    exact List.Perm.refl _
  | cons x hrest ih =>
    intro cs1 cs2 h1 h2
    unfold classifySeq at h1 h2
    cases hx : record_class x with
    | error e => rw [hx] at h1; cases h1
    | ok c =>
      rw [hx] at h1 h2
      cases ha : classifySeq _ with
      | error e => rw [ha] at h1; cases h1
      | ok csa =>
        rw [ha] at h1
        cases hb : classifySeq _ with
        | error e => rw [hb] at h2; cases h2
        | ok csb =>
          rw [hb] at h2
          cases h1; cases h2
          exact List.Perm.cons c (ih ha hb)
  | swap x y l =>
    intro cs1 cs2 h1 h2
    unfold classifySeq at h1 h2
    cases hy : record_class y with
    | error e => rw [hy] at h1; cases h1
    | ok cy =>
      rw [hy] at h1
      cases hx : record_class x with
      | error e => rw [hx] at h2; cases h2
      | ok cx =>
        rw [hx] at h2
        unfold classifySeq at h1 h2
        rw [hx] at h1
        rw [hy] at h2
        cases hl : classifySeq l with
        | error e => rw [hl] at h1; cases h1
        | ok cs =>
          rw [hl] at h1 h2
          cases h1; cases h2
          exact List.Perm.swap cx cy cs
  | @trans la lb lc h12 h23 ih12 ih23 =>
    intro cs1 cs2 h1 h2
    have hall : ∀ r ∈ la, ∃ c, record_class r = .ok c := classifySeq_mem_ok h1
    have hmid : ∀ r ∈ lb, ∃ c, record_class r = .ok c := by
      intro r hr
      exact hall r (h12.mem_iff.mpr hr)
    obtain ⟨csm, hcsm⟩ := classifySeq_ok_of_forall hmid
    exact (ih12 h1 hcsm).trans (ih23 hcsm h2)

-- ===========================================================================
-- Lookup characterization of the tool-version merge
-- ===========================================================================

theorem assocLookup_cons {α : Type} (k : String) (v : α) (rest : List (String × α)) (t : String) :
    assocLookup ((k, v) :: rest) t = if k = t then some v else assocLookup rest t := rfl

theorem assocLookup_eq_none_of_forall_ne {α : Type} {l : List (String × α)} {t : String}
    (h : ∀ p ∈ l, p.1 ≠ t) : assocLookup l t = none := by
  induction l with
  | nil => rfl
  | cons head rest ih =>
    obtain ⟨k, v⟩ := head
    rw [assocLookup_cons, if_neg (h (k, v) (List.mem_cons_self _ _))]
    exact ih fun p hp => h p (List.mem_cons.mpr (Or.inr hp))

theorem mem_orInsert {α : Type} : ∀ {m : List (String × α)} {k : String} {v : α}
    {p : String × α}, p ∈ orInsertKV m k v → p = (k, v) ∨ p ∈ m := by
  intro m
  induction m with
  | nil =>
    intro k v p hp
    exact Or.inl (List.mem_singleton.mp hp)
  | cons head rest ih =>
    intro k v p hp
    obtain ⟨k0, v0⟩ := head
    simp only [orInsertKV] at hp
    by_cases h1 : strLt k k0 = true
    · rw [if_pos h1] at hp
      rcases List.mem_cons.mp hp with h | h
      · exact Or.inl h
      · exact Or.inr h
    · rw [if_neg h1] at hp
      by_cases h2 : strLt k0 k = true
      · rw [if_pos h2] at hp
        rcases List.mem_cons.mp hp with h | h
        · exact Or.inr (List.mem_cons.mpr (Or.inl h))
        · rcases ih h with h' | h'
          · exact Or.inl h'
          · exact Or.inr (List.mem_cons.mpr (Or.inr h'))
      · rw [if_neg h2] at hp
        exact Or.inr hp

/-- Generic strictly ascending keys (same invariant as `KeysStrictSorted`,
for value types other than `Json`). -/
def PairsSortedKeys {α : Type} (l : List (String × α)) : Prop :=
  List.Pairwise (fun p q => strLt p.1 q.1 = true) l

theorem orInsert_sorted {α : Type} {m : List (String × α)} (k : String) (v : α)
    (h : PairsSortedKeys m) : PairsSortedKeys (orInsertKV m k v) := by
  induction m with
  | nil => simp [orInsertKV, PairsSortedKeys]
  | cons head rest ih =>
    obtain ⟨k0, v0⟩ := head
    cases h with
    | cons hk hrest =>
      simp only [orInsertKV]
      by_cases h1 : strLt k k0 = true
      · rw [if_pos h1]
        refine List.Pairwise.cons ?_ (List.Pairwise.cons hk hrest)
        intro q hq
        rcases List.mem_cons.mp hq with h' | h'
        · rw [h']; exact h1
        · exact strLt_trans h1 (hk q h')
      · rw [if_neg h1]
        by_cases h2 : strLt k0 k = true
        · rw [if_pos h2]
          refine List.Pairwise.cons ?_ (ih hrest)
          intro q hq
          rcases mem_orInsert hq with h' | h'
          · rw [h']; exact h2
          · exact hk q h'
        · rw [if_neg h2]
          exact List.Pairwise.cons hk hrest

theorem assocLookup_orInsert {α : Type} {m : List (String × α)} (hm : PairsSortedKeys m)
    (k : String) (v : α) (t : String) :
    assocLookup (orInsertKV m k v) t =
      if k = t then some ((assocLookup m k).getD v) else assocLookup m t := by
  induction m with
  | nil =>
    by_cases h : k = t <;> simp [orInsertKV, assocLookup, h]
  | cons head rest ih =>
    obtain ⟨k0, v0⟩ := head
    cases hm with
    | cons hk0 hrest =>
      simp only [orInsertKV]
      by_cases h1 : strLt k k0 = true
      · rw [if_pos h1]
        have hknone : assocLookup ((k0, v0) :: rest) k = none := by
          apply assocLookup_eq_none_of_forall_ne
          intro p hp
          rcases List.mem_cons.mp hp with h | h
          · rw [h]
            exact fun he => strLt_ne h1 he.symm
          · exact fun he => strLt_ne (strLt_trans h1 (hk0 p h)) he.symm
        rw [assocLookup_cons, hknone]
        by_cases ht : k = t
        · rw [if_pos ht, if_pos ht]
          rfl
        · rw [if_neg ht, if_neg ht]
      · rw [if_neg h1]
        by_cases h2 : strLt k0 k = true
        · rw [if_pos h2]
          have hkk0 : k0 ≠ k := strLt_ne h2
          rw [assocLookup_cons, ih hrest]
          by_cases ht : k0 = t
          · subst ht
            have hkt : k ≠ k0 := fun he => hkk0 he.symm
            rw [if_pos rfl, if_neg hkt, assocLookup_cons, if_pos rfl]
          · rw [if_neg ht]
            by_cases hkt : k = t
            · rw [if_pos hkt, if_pos hkt, assocLookup_cons, if_neg hkk0]
            · rw [if_neg hkt, if_neg hkt, assocLookup_cons, if_neg ht]
        · rw [if_neg h2]
          have hkk0 : k = k0 := strLt_eq_of_not (by simpa using h1) (by simpa using h2)
          subst hkk0
          by_cases ht : k = t
          · subst ht
            simp [assocLookup_cons]
          · rw [if_neg ht]

/-- The `tool_versions` entries of a record, in object order ([] when the
field is absent or not an object). -/
def toolEntriesOf (r : InputRecord) : List (String × Json) :=
  ((jsonGet r.value "tool_versions").bind asObject).getD []

/-- The first-seen string version for a tool across entry sequences. -/
def firstSeenIn (entries : List (String × Json)) (t : String) : Option String :=
  (entries.filterMap fun kv => if kv.1 = t then asStr kv.2 else none).head?

/-- The first-seen string version for a tool across all records, walking
records in input order and each record's entries in object order. -/
def firstSeenTool (records : List InputRecord) (t : String) : Option String :=
  firstSeenIn (records.flatMap toolEntriesOf) t

theorem entry_step_sorted {m : List (String × String)} (hm : PairsSortedKeys m)
    (kv : String × Json) :
    PairsSortedKeys ((fun m (kv : String × Json) =>
      match asStr kv.2 with
      | none => m
      | some ver => orInsertKV m kv.1 ver) m kv) := by
  cases h : asStr kv.2 with
  | none => simpa [h] using hm
  | some ver => simpa [h] using orInsert_sorted kv.1 ver hm

theorem lookup_foldl_entries (entries : List (String × Json)) :
    ∀ (m : List (String × String)), PairsSortedKeys m → ∀ t,
      assocLookup (entries.foldl (fun m kv =>
        match asStr kv.2 with
        | none => m
        | some ver => orInsertKV m kv.1 ver) m) t =
      (assocLookup m t).or (firstSeenIn entries t) := by
  induction entries with
  | nil =>
    intro m _ t
    simp [firstSeenIn]
  | cons kv rest ih =>
    intro m hm t
    rw [List.foldl_cons]
    cases hs : asStr kv.2 with
    | none =>
      simp only [hs]
      rw [ih m hm t]
      unfold firstSeenIn
      rw [List.filterMap_cons]
      by_cases hk : kv.1 = t
      · rw [if_pos hk, hs]
      · rw [if_neg hk]
    | some ver =>
      simp only [hs]
      rw [ih _ (orInsert_sorted kv.1 ver hm) t]
      rw [assocLookup_orInsert hm kv.1 ver t]
      unfold firstSeenIn
      rw [List.filterMap_cons]
      by_cases hk : kv.1 = t
      · rw [if_pos hk, hs]
        subst hk
        cases hmk : assocLookup m kv.1 with
        | none => simp
        | some w => simp
      · rw [if_neg hk, if_neg hk]

theorem insertRecordToolVersions_eq (m : List (String × String)) (r : InputRecord) :
    insertRecordToolVersions m r = (toolEntriesOf r).foldl (fun m kv =>
      match asStr kv.2 with
      | none => m
      | some ver => orInsertKV m kv.1 ver) m := by
  unfold insertRecordToolVersions toolEntriesOf
  cases h : (jsonGet r.value "tool_versions").bind asObject with
  | none => rfl
  | some entries => rfl

theorem foldl_entries_sorted (entries : List (String × Json)) :
    ∀ {m : List (String × String)}, PairsSortedKeys m →
      PairsSortedKeys (entries.foldl (fun m kv =>
        match asStr kv.2 with
        | none => m
        | some ver => orInsertKV m kv.1 ver) m) := by
  induction entries with
  | nil => intro m hm; exact hm
  | cons kv rest ih =>
    intro m hm
    rw [List.foldl_cons]
    exact ih (entry_step_sorted hm kv)

theorem record_step_sorted {m : List (String × String)} (hm : PairsSortedKeys m)
    (r : InputRecord) : PairsSortedKeys (insertRecordToolVersions m r) := by
  rw [insertRecordToolVersions_eq]
  exact foldl_entries_sorted _ hm

theorem lookup_foldl_records (records : List InputRecord) :
    ∀ (m : List (String × String)), PairsSortedKeys m → ∀ t,
      assocLookup (records.foldl insertRecordToolVersions m) t =
      (assocLookup m t).or (firstSeenTool records t) := by
  induction records with
  | nil =>
    intro m _ t
    simp [firstSeenTool, firstSeenIn]
  | cons r rest ih =>
    intro m hm t
    rw [List.foldl_cons, ih _ (record_step_sorted hm r) t,
      insertRecordToolVersions_eq, lookup_foldl_entries _ m hm t]
    unfold firstSeenTool firstSeenIn
    rw [List.flatMap_cons, List.filterMap_append, List.head?_append, Option.or_assoc]

theorem lookup_merge_tool_versions (records : List InputRecord) (lock_version : String)
    (t : String) :
    assocLookup (merge_tool_versions records lock_version) t =
      if t = "lock" then some ((firstSeenTool records "lock").getD lock_version)
      else firstSeenTool records t := by
  unfold merge_tool_versions
  have hsorted : PairsSortedKeys (records.foldl insertRecordToolVersions []) := by
    have : ∀ (l : List InputRecord) (m : List (String × String)), PairsSortedKeys m →
        PairsSortedKeys (l.foldl insertRecordToolVersions m) := by
      intro l
      induction l with
      | nil => intro m hm; exact hm
      | cons r rest ih => intro m hm; exact ih _ (record_step_sorted hm r)
    exact this records [] List.Pairwise.nil
  rw [assocLookup_orInsert hsorted, lookup_foldl_records records [] List.Pairwise.nil,
    lookup_foldl_records records [] List.Pairwise.nil]
  simp only [assocLookup, Option.none_or]
  by_cases ht : t = "lock"
  · rw [if_pos (ht ▸ rfl : ("lock" : String) = t), if_pos ht]
  · rw [if_neg (fun he : ("lock" : String) = t => ht he.symm), if_neg ht]

-- ===========================================================================
-- Characterization of the validation loop
-- ===========================================================================

/-- The paths collected by the hash gate: one per non-skipped record without
a usable `bytes_hash`, in record order. -/
def missing_hash_paths (records : List InputRecord) : List String :=
  records.filterMap fun r =>
    if is_skipped r then none
    else if has_non_empty_string_field r.value "bytes_hash" then none
    else some (path_for_missing_hash r)

theorem validateAux_ok {records : List InputRecord}
    (hv : ∀ r ∈ records, validate_version r = .ok ()) :
    ∀ acc, validateAux records acc = .ok (acc ++ missing_hash_paths records) := by
  induction records with
  | nil => intro acc; simp [validateAux, missing_hash_paths]
  | cons r rest ih =>
    intro acc
    have hr : validate_version r = .ok () := hv r (List.mem_cons_self _ _)
    have hrest : ∀ q ∈ rest, validate_version q = .ok () :=
      fun q hq => hv q (List.mem_cons.mpr (Or.inr hq))
    unfold validateAux
    rw [hr]
    unfold missing_hash_paths
    rw [List.filterMap_cons]
    by_cases h1 : is_skipped r
    · rw [if_pos h1, if_pos h1, ih hrest acc]
      rfl
    · rw [if_neg h1, if_neg h1]
      by_cases h2 : has_non_empty_string_field r.value "bytes_hash"
      · rw [if_pos h2, if_pos h2, ih hrest acc]
        rfl
      · rw [if_neg h2, if_neg h2, ih hrest (acc ++ [path_for_missing_hash r])]
        unfold missing_hash_paths
        rw [List.append_assoc]
        rfl

theorem validate_records_missing {records : List InputRecord}
    (hv : ∀ r ∈ records, validate_version r = .ok ())
    (hne : missing_hash_paths records ≠ []) :
    validate_records records = .error (.missingHash
      ⟨(missing_hash_paths records).length, (missing_hash_paths records).take 5⟩) := by
  unfold validate_records
  rw [validateAux_ok hv []]
  cases hp : missing_hash_paths records with
  | nil => exact absurd hp hne
  | cons p ps => simp

deriving instance DecidableEq for Except

-- ===========================================================================
-- Claim theorems
-- ===========================================================================

/-- C6: member-verification outcome mapping: `failed > 0` yields
`VERIFY_FAILED` with exit 1; otherwise `skipped > 0` yields `VERIFY_PARTIAL`
with exit 1, promoted to `VERIFY_FAILED` (still exit 1) under `--strict`;
otherwise `VERIFY_OK` with exit 0. -/
theorem members_outcome_spec (r : MembersResult) (strict : Bool) :
    (r.failed > 0 → members_outcome r strict = ("VERIFY_FAILED", 1)) ∧
    (r.failed = 0 → r.skipped > 0 → strict = true →
      members_outcome r strict = ("VERIFY_FAILED", 1)) ∧
    (r.failed = 0 → r.skipped > 0 → strict = false →
      members_outcome r strict = ("VERIFY_PARTIAL", 1)) ∧
    (r.failed = 0 → r.skipped = 0 → members_outcome r strict = ("VERIFY_OK", 0)) := by
  unfold members_outcome
  refine ⟨?_, ?_, ?_, ?_⟩
  · intro h
    rw [if_pos h]
  · intro h0 hs hst
    rw [if_neg (by omega), if_pos hs, hst, if_pos rfl]
  · intro h0 hs hst
    rw [if_neg (by omega), if_pos hs, hst, if_neg (by simp)]
  · intro h0 hs
    rw [if_neg (by omega), if_neg (by omega)]

/-- C6 witness: a run with one skip and no failure, not strict, is
`VERIFY_PARTIAL` with exit 1. -/
theorem members_outcome_spec_witness :
    (0 = 0 ∧ 1 > 0 ∧ false = false) ∧
    members_outcome ⟨"/r", 1, 0, 0, 1, [], [⟨"a.csv", "IO_ERROR", "denied"⟩]⟩ false =
      ("VERIFY_PARTIAL", 1) :=
  ⟨⟨rfl, by decide, rfl⟩,
    (members_outcome_spec ⟨"/r", 1, 0, 0, 1, [], [⟨"a.csv", "IO_ERROR", "denied"⟩]⟩ false).2.2.1
      rfl (by decide) rfl⟩

/-- C10: a `_skipped` field that is present but not a JSON boolean does not
mark the record as skipped — only the boolean `true` does; such a record is
validated and classified as a member, so it must supply a string
`bytes_hash` and a u64 `size`. -/
theorem non_boolean_skipped_is_member (r : InputRecord) (j : Json)
    (hj : jsonGet r.value "_skipped" = some j) (hb : asBool j = none) :
    is_skipped r = false ∧
    record_skipped_flag r.value = false ∧
    (∀ p, extract_record_path r.value r.line_number = .ok p →
      (jsonGet r.value "bytes_hash").bind asStr = none →
      classify_records [r] = .error (.missingBytesHash r.line_number)) ∧
    (∀ p bh, extract_record_path r.value r.line_number = .ok p →
      (jsonGet r.value "bytes_hash").bind asStr = some bh →
      (jsonGet r.value "size").bind asU64 = none →
      classify_records [r] = .error (.missingSize r.line_number)) ∧
    (∀ p bh sz, extract_record_path r.value r.line_number = .ok p →
      (jsonGet r.value "bytes_hash").bind asStr = some bh →
      (jsonGet r.value "size").bind asU64 = some sz →
      classify_records [r] = .ok
        ⟨[⟨p, bh, sz, extract_fingerprint r.value⟩], [], 0, 1, .lockCreated⟩) ∧
    (∀ q : InputRecord, is_skipped q = true ↔ jsonGet q.value "_skipped" = some (.bool true)) := by
  have hflag : record_skipped_flag r.value = false := by
    unfold record_skipped_flag
    rw [hj]
    simp [hb]
  have hrc : ∀ p, extract_record_path r.value r.line_number = .ok p →
      record_class r = (match (jsonGet r.value "bytes_hash").bind asStr with
        | none => .error (.missingBytesHash r.line_number)
        | some bytes_hash =>
          match (jsonGet r.value "size").bind asU64 with
          | none => .error (.missingSize r.line_number)
          | some size => .ok (.inl ⟨p, bytes_hash, size, extract_fingerprint r.value⟩)) := by
    intro p hp
    unfold record_class
    rw [hp, hflag]
    simp
  refine ⟨hflag, hflag, ?_, ?_, ?_, ?_⟩
  · intro p hp hh
    have := hrc p hp
    rw [hh] at this
    unfold classify_records classifyAux classifySeq
    rw [this]
    rfl
  · intro p bh hp hh hs
    have := hrc p hp
    rw [hh, hs] at this
    unfold classify_records classifyAux classifySeq
    rw [this]
    rfl
  · intro p bh sz hp hh hs
    have := hrc p hp
    rw [hh, hs] at this
    unfold classify_records classifyAux classifySeq
    rw [this]
    rfl
  · intro q
    unfold is_skipped record_skipped_flag
    cases hq : jsonGet q.value "_skipped" with
    | none => simp
    | some jv =>
      cases jv with
      | bool b => cases b <;> simp [asBool]
      | null => simp [asBool]
      | num n => simp [asBool]
      | str s => simp [asBool]
      | arr l => simp [asBool]
      | obj e => simp [asBool]

/-- C10 witness: `_skipped: "true"` (a string) with full member fields
classifies as a member, not as skipped. -/
theorem non_boolean_skipped_is_member_witness :
    (jsonGet (Json.obj [("_skipped", .str "true"), ("relative_path", .str "a.csv"),
        ("bytes_hash", .str "sha256:aa"), ("size", .num 1)]) "_skipped" = some (.str "true") ∧
      asBool (.str "true") = none) ∧
    is_skipped ⟨3, Json.obj [("_skipped", .str "true"), ("relative_path", .str "a.csv"),
        ("bytes_hash", .str "sha256:aa"), ("size", .num 1)]⟩ = false ∧
    classify_records [⟨3, Json.obj [("_skipped", .str "true"), ("relative_path", .str "a.csv"),
        ("bytes_hash", .str "sha256:aa"), ("size", .num 1)]⟩] =
      .ok ⟨[⟨"a.csv", "sha256:aa", 1, none⟩], [], 0, 1, .lockCreated⟩ := by
  refine ⟨⟨rfl, rfl⟩, ?_, ?_⟩
  · exact (non_boolean_skipped_is_member
      ⟨3, Json.obj [("_skipped", .str "true"), ("relative_path", .str "a.csv"),
        ("bytes_hash", .str "sha256:aa"), ("size", .num 1)]⟩ (.str "true") rfl rfl).1
  · exact (non_boolean_skipped_is_member
      ⟨3, Json.obj [("_skipped", .str "true"), ("relative_path", .str "a.csv"),
        ("bytes_hash", .str "sha256:aa"), ("size", .num 1)]⟩ (.str "true") rfl rfl).2.2.2.2.1
      "a.csv" "sha256:aa" 1 rfl rfl rfl

/-- C4 (amended): the walk inserts each string-valued `tool_versions` entry
first-seen-wins, and the `lock` entry is defaulted to the running tool's
version only when no record supplied one; the merged map always contains a
`lock` entry — the first-seen lock version if any record carries one,
otherwise the running tool's version. -/
theorem merge_tool_versions_spec (records : List InputRecord) (lock_version : String) :
    (∀ t, assocLookup (merge_tool_versions records lock_version) t =
      if t = "lock" then some ((firstSeenTool records "lock").getD lock_version)
      else firstSeenTool records t) ∧
    assocLookup (merge_tool_versions records lock_version) "lock" =
      some ((firstSeenTool records "lock").getD lock_version) := by
  refine ⟨fun t => lookup_merge_tool_versions records lock_version t, ?_⟩
  rw [lookup_merge_tool_versions records lock_version "lock", if_pos rfl]

/-- C4 counterexample: a record that itself carries a `lock` entry in
`tool_versions` wins over the running tool's version, so the `lock` entry is
not unconditionally set to the running tool's version. -/
theorem merge_tool_versions_lock_not_overwritten :
    assocLookup (merge_tool_versions
      [⟨1, Json.obj [("tool_versions", Json.obj [("lock", Json.str "9.9.9")])]⟩]
      "0.1.0") "lock" = some "9.9.9" ∧ ("9.9.9" : String) ≠ "0.1.0" := by
  constructor
  · rfl
  · decide

/-- C8 (amended): when every record passes the version gate and at least one
non-skipped record lacks a usable `bytes_hash`, validation fails with
`E_MISSING_HASH` whose count is the total number of affected records and
whose sample is the first `min 5 count` affected paths in record order; the
refusal exits with code 2. -/
theorem missing_hash_refusal_spec (records : List InputRecord)
    (hv : ∀ r ∈ records, validate_version r = .ok ())
    (hne : missing_hash_paths records ≠ []) :
    validate_records records = .error (.missingHash
      ⟨(missing_hash_paths records).length, (missing_hash_paths records).take 5⟩) ∧
    (lock_validation_refusal (.missingHash
      ⟨(missing_hash_paths records).length, (missing_hash_paths records).take 5⟩)).refusal.code
      = RefusalCode.missingHash ∧
    (lock_validation_refusal (.missingHash
      ⟨(missing_hash_paths records).length, (missing_hash_paths records).take 5⟩)).refusal.detail
      = Json.obj [("count", .num (missing_hash_paths records).length),
          ("sample_paths", .arr (((missing_hash_paths records).take 5).map Json.str))] ∧
    ((missing_hash_paths records).take 5).length = min 5 (missing_hash_paths records).length ∧
    DomainOutcome.refusal.exit_code = 2 := by
  refine ⟨validate_records_missing hv hne, rfl, ?_, ?_, rfl⟩
  · unfold lock_validation_refusal missing_hash
    simp [List.take_take]
  · rw [List.length_take]

/-- C8 witness: seven affected records give count 7 and a five-path sample. -/
theorem missing_hash_refusal_spec_witness :
    (∀ r ∈ ([⟨1, Json.obj [("version", .str "hash.v0"), ("relative_path", .str "p1")]⟩,
             ⟨2, Json.obj [("version", .str "hash.v0"), ("relative_path", .str "p2")]⟩,
             ⟨3, Json.obj [("version", .str "hash.v0"), ("relative_path", .str "p3")]⟩,
             ⟨4, Json.obj [("version", .str "hash.v0"), ("relative_path", .str "p4")]⟩,
             ⟨5, Json.obj [("version", .str "hash.v0"), ("relative_path", .str "p5")]⟩,
             ⟨6, Json.obj [("version", .str "hash.v0"), ("relative_path", .str "p6")]⟩,
             ⟨7, Json.obj [("version", .str "hash.v0"), ("relative_path", .str "p7")]⟩] :
        List InputRecord), validate_version r = .ok ()) ∧
    validate_records ([⟨1, Json.obj [("version", .str "hash.v0"), ("relative_path", .str "p1")]⟩,
             ⟨2, Json.obj [("version", .str "hash.v0"), ("relative_path", .str "p2")]⟩,
             ⟨3, Json.obj [("version", .str "hash.v0"), ("relative_path", .str "p3")]⟩,
             ⟨4, Json.obj [("version", .str "hash.v0"), ("relative_path", .str "p4")]⟩,
             ⟨5, Json.obj [("version", .str "hash.v0"), ("relative_path", .str "p5")]⟩,
             ⟨6, Json.obj [("version", .str "hash.v0"), ("relative_path", .str "p6")]⟩,
             ⟨7, Json.obj [("version", .str "hash.v0"), ("relative_path", .str "p7")]⟩] :
        List InputRecord) =
      .error (.missingHash ⟨7, ["p1", "p2", "p3", "p4", "p5"]⟩) ∧
    (5 : Nat) = min 5 7 := by
  refine ⟨?_, ?_, by decide⟩
  · intro r hr
    rcases List.mem_cons.mp hr with rfl | hr
    · rfl
    rcases List.mem_cons.mp hr with rfl | hr
    · rfl
    rcases List.mem_cons.mp hr with rfl | hr
    · rfl
    rcases List.mem_cons.mp hr with rfl | hr
    · rfl
    rcases List.mem_cons.mp hr with rfl | hr
    · rfl
    rcases List.mem_cons.mp hr with rfl | hr
    · rfl
    rcases List.mem_cons.mp hr with rfl | hr
    · rfl
    cases hr
  · have h := (missing_hash_refusal_spec
      ([⟨1, Json.obj [("version", .str "hash.v0"), ("relative_path", .str "p1")]⟩,
        ⟨2, Json.obj [("version", .str "hash.v0"), ("relative_path", .str "p2")]⟩,
        ⟨3, Json.obj [("version", .str "hash.v0"), ("relative_path", .str "p3")]⟩,
        ⟨4, Json.obj [("version", .str "hash.v0"), ("relative_path", .str "p4")]⟩,
        ⟨5, Json.obj [("version", .str "hash.v0"), ("relative_path", .str "p5")]⟩,
        ⟨6, Json.obj [("version", .str "hash.v0"), ("relative_path", .str "p6")]⟩,
        ⟨7, Json.obj [("version", .str "hash.v0"), ("relative_path", .str "p7")]⟩] :
        List InputRecord)
      (by decide) (by decide)).1
    rw [h]
    decide

/-- C8 counterexample: a record that both fails the version gate and lacks a
`bytes_hash` refuses with `E_BAD_INPUT` (bad version), not `E_MISSING_HASH`:
the version gate preempts the hash gate. -/
theorem missing_hash_preempted_by_version_gate :
    is_skipped ⟨1, Json.obj [("version", .str "bogus.v9"),
        ("relative_path", .str "a.csv")]⟩ = false ∧
    has_non_empty_string_field (Json.obj [("version", .str "bogus.v9"),
        ("relative_path", .str "a.csv")]) "bytes_hash" = false ∧
    validate_records [⟨1, Json.obj [("version", .str "bogus.v9"),
        ("relative_path", .str "a.csv")]⟩] = .error (.badVersion ⟨1, some "bogus.v9"⟩) ∧
    (lock_validation_refusal (.badVersion ⟨1, some "bogus.v9"⟩)).refusal.code ≠
      RefusalCode.missingHash := by
  refine ⟨rfl, rfl, by decide, by decide⟩

theorem stream_hash_no_string_hash (bytes : List Nat) (b3 : List Nat → String) :
    stream_hash bytes "" b3 = .error "unsupported algorithm: " := rfl

/-- Whether the verify-side shape check accepts a lockfile value. -/
def validationAccepts (v : Json) : Bool :=
  match validate_lockfile_json v with
  | .ok _ => true
  | .error _ => false

/-- C9: a member whose `bytes_hash` is absent or not a JSON string passes
the shape check's algorithm gate (which applies only to string values), is
never verified, and — when its file exists with an agreeing size — is
recorded as a skip with reason `IO_ERROR` and an unsupported-algorithm
detail, so a run over such a member ends `VERIFY_PARTIAL`. -/
theorem non_string_hash_member_skipped (member : Json) (i : Nat) (fs : FS)
    (b3 : List Nat → String)
    (hh : (jsonGet member "bytes_hash").bind asStr = none) :
    (∀ p a, member_path_refusal i member ≠ some (.unknownAlgorithm p a)) ∧
    (checkMember fs b3 member ≠ .verifiedM) ∧
    (∀ bytes, assocLookup fs (((jsonGet member "path").bind asStr).getD "") = some bytes →
      ((jsonGet member "size").bind asU64 = none ∨
        (jsonGet member "size").bind asU64 = some bytes.length) →
      checkMember fs b3 member =
        .skippedM ⟨((jsonGet member "path").bind asStr).getD "", "IO_ERROR",
          "unsupported algorithm: "⟩) ∧
    (∀ (lockfile : Json) (root : String) (bytes : List Nat),
      (jsonGet lockfile "members").bind asArray = some [member] →
      assocLookup fs (((jsonGet member "path").bind asStr).getD "") = some bytes →
      ((jsonGet member "size").bind asU64 = none ∨
        (jsonGet member "size").bind asU64 = some bytes.length) →
      (verify_members fs b3 lockfile root).failed = 0 ∧
      (verify_members fs b3 lockfile root).skipped = 1 ∧
      members_outcome (verify_members fs b3 lockfile root) false = ("VERIFY_PARTIAL", 1)) := by
  have hskip : ∀ bytes, assocLookup fs (((jsonGet member "path").bind asStr).getD "") = some bytes →
      ((jsonGet member "size").bind asU64 = none ∨
        (jsonGet member "size").bind asU64 = some bytes.length) →
      checkMember fs b3 member =
        .skippedM ⟨((jsonGet member "path").bind asStr).getD "", "IO_ERROR",
          "unsupported algorithm: "⟩ := by
    intro bytes hfs hsz
    unfold checkMember
    rw [hh]
    dsimp only
    simp only [Option.getD_none]
    rw [hfs]
    dsimp only
    rcases hsz with hsz | hsz
    · rw [hsz]
      dsimp only
      unfold checkMemberHash
      rw [stream_hash_no_string_hash]
    · rw [hsz]
      dsimp only
      rw [if_neg (by omega)]
      unfold checkMemberHash
      rw [stream_hash_no_string_hash]
  refine ⟨?_, ?_, hskip, ?_⟩
  · intro p a
    unfold member_path_refusal
    rw [hh]
    dsimp only
    split_ifs <;> simp
  · unfold checkMember
    rw [hh]
    dsimp only
    simp only [Option.getD_none]
    cases hfs : assocLookup fs (((jsonGet member "path").bind asStr).getD "") with
    | none => simp
    | some bytes =>
      dsimp only
      cases hsz : (jsonGet member "size").bind asU64 with
      | none =>
        dsimp only
        unfold checkMemberHash
        rw [stream_hash_no_string_hash]
        simp
      | some es =>
        dsimp only
        by_cases hmm : bytes.length ≠ es
        · rw [if_pos hmm]
          simp
        · rw [if_neg hmm]
          unfold checkMemberHash
          rw [stream_hash_no_string_hash]
          simp
  · intro lockfile root bytes hlm hfs hsz
    have hc := hskip bytes hfs hsz
    unfold verify_members
    rw [hlm]
    simp only [Option.getD_some, List.map_cons, List.map_nil, hc, List.filterMap_cons,
      List.filterMap_nil, List.filter_cons, List.filter_nil]
    refine ⟨rfl, rfl, ?_⟩
    rfl

/-- C9 witness: `bytes_hash: 5` (a number) with the file present at the
right size: the lockfile passes the shape check, and member verification
records one skip with reason `IO_ERROR`, giving `VERIFY_PARTIAL`. -/
theorem non_string_hash_member_skipped_witness :
    ((jsonGet (Json.obj [("path", .str "a.csv"), ("bytes_hash", .num 5), ("size", .num 3)])
        "bytes_hash").bind asStr = none ∧
      validationAccepts (Json.obj [("version", .str "lock.v0"), ("lock_hash", .str "sha256:aa"),
        ("members", .arr [Json.obj [("path", .str "a.csv"), ("bytes_hash", .num 5),
          ("size", .num 3)]])]) = true) ∧
    checkMember [("a.csv", [97, 98, 99])] (fun _ => "")
      (Json.obj [("path", .str "a.csv"), ("bytes_hash", .num 5), ("size", .num 3)]) =
      .skippedM ⟨"a.csv", "IO_ERROR", "unsupported algorithm: "⟩ ∧
    members_outcome (verify_members [("a.csv", [97, 98, 99])] (fun _ => "")
      (Json.obj [("members", .arr [Json.obj [("path", .str "a.csv"), ("bytes_hash", .num 5),
        ("size", .num 3)]])]) "/r") false = ("VERIFY_PARTIAL", 1) := by
  refine ⟨⟨rfl, rfl⟩, ?_, ?_⟩
  · exact (non_string_hash_member_skipped
      (Json.obj [("path", .str "a.csv"), ("bytes_hash", .num 5), ("size", .num 3)]) 0
      [("a.csv", [97, 98, 99])] (fun _ => "") rfl).2.2.1 [97, 98, 99] rfl (Or.inr rfl)
  · exact ((non_string_hash_member_skipped
      (Json.obj [("path", .str "a.csv"), ("bytes_hash", .num 5), ("size", .num 3)]) 0
      [("a.csv", [97, 98, 99])] (fun _ => "") rfl).2.2.2
      (Json.obj [("members", .arr [Json.obj [("path", .str "a.csv"), ("bytes_hash", .num 5),
        ("size", .num 3)]])]) "/r" [97, 98, 99] rfl rfl (Or.inr rfl)).2.2

-- ===========================================================================
-- Self-hash claim
-- ===========================================================================

/-- The lowercase hexadecimal alphabet. -/
def hexCharsList : List Char := (List.range 16).map hexDigitChar

theorem hexDigitChar_mem : ∀ n : Nat, hexDigitChar n ∈ hexCharsList
  | 0 => by decide
  | 1 => by decide
  | 2 => by decide
  | 3 => by decide
  | 4 => by decide
  | 5 => by decide
  | 6 => by decide
  | 7 => by decide
  | 8 => by decide
  | 9 => by decide
  | 10 => by decide
  | 11 => by decide
  | 12 => by decide
  | 13 => by decide
  | 14 => by decide
  | n + 15 => (by decide : ('f' : Char) ∈ hexCharsList)

theorem wordHex_chars (w : Nat) : ∀ c ∈ wordHex w, c ∈ hexCharsList := by
  intro c hc
  unfold wordHex at hc
  rcases List.mem_cons.mp hc with rfl | hc
  · exact hexDigitChar_mem _
  rcases List.mem_cons.mp hc with rfl | hc
  · exact hexDigitChar_mem _
  rcases List.mem_cons.mp hc with rfl | hc
  · exact hexDigitChar_mem _
  rcases List.mem_cons.mp hc with rfl | hc
  · exact hexDigitChar_mem _
  rcases List.mem_cons.mp hc with rfl | hc
  · exact hexDigitChar_mem _
  rcases List.mem_cons.mp hc with rfl | hc
  · exact hexDigitChar_mem _
  rcases List.mem_cons.mp hc with rfl | hc
  · exact hexDigitChar_mem _
  rcases List.mem_singleton.mp hc with rfl
  exact hexDigitChar_mem _

theorem wordHex_length (w : Nat) : (wordHex w).length = 8 := rfl

theorem length_flatMap_wordHex : ∀ ws : List Nat, (ws.flatMap wordHex).length = 8 * ws.length := by
  intro ws
  induction ws with
  | nil => rfl
  | cons w rest ih =>
    rw [List.flatMap_cons, List.length_append, wordHex_length, ih, List.length_cons]
    omega

theorem sha256Block_length (hs block : List Nat) (h : hs.length = 8) :
    (sha256Block hs block).length = 8 := by
  unfold sha256Block
  split
  · rfl
  · exact h

theorem foldl_sha256Block_length : ∀ (blocks : List (List Nat)) (hs : List Nat),
    hs.length = 8 → (blocks.foldl sha256Block hs).length = 8 := by
  intro blocks
  induction blocks with
  | nil => intro hs h; exact h
  | cons b rest ih =>
    intro hs h
    rw [List.foldl_cons]
    exact ih _ (sha256Block_length hs b h)

theorem sha256Words_length (msg : List Nat) : (sha256Words msg).length = 8 := by
  unfold sha256Words
  exact foldl_sha256Block_length _ _ rfl

theorem sha256HexString_length (msg : List Nat) : (sha256HexString msg).length = 64 := by
  show ((sha256Words msg).flatMap wordHex).length = 64
  rw [length_flatMap_wordHex, sha256Words_length]

theorem sha256HexString_chars (msg : List Nat) :
    ∀ c ∈ (sha256HexString msg).data, c ∈ hexCharsList := by
  intro c hc
  rcases List.mem_flatMap.mp hc with ⟨w, _, hw⟩
  exact wordHex_chars w c hw

theorem compute_lock_hash_update (L : Lockfile) (h : String) :
    compute_lock_hash { L with lock_hash := h } = compute_lock_hash L := rfl

/-- C1: sealing a lockfile with its own computed hash verifies; changing the
`lock_hash` field to anything else fails verification; changing any other
field fails verification whenever the SHA-256 digests of the two canonical
preimages differ (SHA-256 is not injective, so the digest-difference
hypothesis is exactly what tampering changes, witnessed concretely below);
the raw-JSON variant decides the same predicate on the serialized value; and
the computed hash is `"sha256:"` followed by the 64-character lowercase hex
SHA-256 digest of the canonical JSON of the lockfile with `lock_hash`
blanked. -/
theorem lock_self_hash_spec :
    (∀ L : Lockfile, verify_lock_hash { L with lock_hash := compute_lock_hash L } = true) ∧
    (∀ (L : Lockfile) (h : String), h ≠ compute_lock_hash L →
      verify_lock_hash { L with lock_hash := h } = false) ∧
    (∀ L1 L2 : Lockfile, L1.lock_hash = compute_lock_hash L1 →
      L2.lock_hash = L1.lock_hash → compute_lock_hash L2 ≠ compute_lock_hash L1 →
      verify_lock_hash L2 = false) ∧
    (∀ L : Lockfile, verify_lock_hash_from_json (lockfileToJson L) = verify_lock_hash L) ∧
    (∀ L : Lockfile, compute_lock_hash L =
        "sha256:" ++ sha256HexString (strBytes (to_canonical_json
          (lockfileToJson { L with lock_hash := "" }))) ∧
      (sha256HexString (strBytes (to_canonical_json
          (lockfileToJson { L with lock_hash := "" })))).length = 64 ∧
      ∀ c ∈ (sha256HexString (strBytes (to_canonical_json
          (lockfileToJson { L with lock_hash := "" })))).data, c ∈ hexCharsList) := by
  refine ⟨?_, ?_, ?_, ?_, ?_⟩
  · intro L
    unfold verify_lock_hash
    rw [compute_lock_hash_update]
    exact beq_self_eq_true _
  · intro L h hne
    unfold verify_lock_hash
    rw [compute_lock_hash_update]
    exact beq_eq_false_iff_ne.mpr hne
  · intro L1 L2 h1 h2 hne
    unfold verify_lock_hash
    rw [h2, h1]
    exact beq_eq_false_iff_ne.mpr (Ne.symm hne)
  · intro L
    rfl
  · intro L
    exact ⟨rfl, sha256HexString_length _, sha256HexString_chars _⟩

/-- A concrete lockfile used to exercise the self-hash theorems. -/
def wlf : Lockfile :=
  { version := "lock.v0"
    lock_hash := ""
    dataset_id := none
    as_of := none
    note := none
    created := "2026-01-01T00:00:00Z"
    tool_versions := [("lock", "0.1.0")]
    profiles := []
    skipped := []
    members := []
    skipped_count := 0
    member_count := 0 }

theorem lock_self_hash_spec_witness :
    verify_lock_hash { wlf with lock_hash := compute_lock_hash wlf } = true ∧
    ("x" ≠ compute_lock_hash wlf ∧
      verify_lock_hash { wlf with lock_hash := "x" } = false) ∧
    (compute_lock_hash
        { wlf with lock_hash := compute_lock_hash wlf, dataset_id := some "tampered" } ≠
        compute_lock_hash { wlf with lock_hash := compute_lock_hash wlf } ∧
      verify_lock_hash
        { wlf with lock_hash := compute_lock_hash wlf, dataset_id := some "tampered" } = false) :=
  ⟨lock_self_hash_spec.1 wlf,
   ⟨by decide, lock_self_hash_spec.2.1 wlf "x" (by decide)⟩,
   ⟨by decide,
    lock_self_hash_spec.2.2.1
      { wlf with lock_hash := compute_lock_hash wlf }
      { wlf with lock_hash := compute_lock_hash wlf, dataset_id := some "tampered" }
      (by decide) rfl (by decide)⟩⟩

-- ===========================================================================
-- Canonical-encoder claim: whitespace-freedom machinery
-- ===========================================================================

/-- A string none of whose characters is whitespace. -/
def strNoWs (s : String) : Bool := s.data.all fun c => !c.isWhitespace

mutual

/-- All string scalars and object keys of the value are whitespace-free. -/
def jsonNoWs : Json → Bool
  | .null => true
  | .bool _ => true
  | .num _ => true
  | .str s => strNoWs s
  | .arr items => itemsNoWs items
  | .obj entries => entriesNoWs entries

/-- `jsonNoWs` over array items. -/
def itemsNoWs : List Json → Bool
  | [] => true
  | x :: xs => jsonNoWs x && itemsNoWs xs

/-- `jsonNoWs` over object entries, including keys. -/
def entriesNoWs : List (String × Json) → Bool
  | [] => true
  | (k, v) :: rest => strNoWs k && jsonNoWs v && entriesNoWs rest

end

theorem digitChar_not_ws : ∀ n : Nat, (digitChar n).isWhitespace = false
  | 0 => by decide
  | 1 => by decide
  | 2 => by decide
  | 3 => by decide
  | 4 => by decide
  | 5 => by decide
  | 6 => by decide
  | 7 => by decide
  | 8 => by decide
  | n + 9 => (by decide : ('9' : Char).isWhitespace = false)

theorem hexDigitChar_not_ws (n : Nat) : (hexDigitChar n).isWhitespace = false :=
  (by decide : ∀ c ∈ hexCharsList, c.isWhitespace = false) _ (hexDigitChar_mem n)

theorem natDecAux_not_ws : ∀ (fuel n : Nat), ∀ x ∈ natDecAux fuel n, x.isWhitespace = false := by
  intro fuel
  induction fuel with
  | zero => intro n x h; cases h
  | succ f ih =>
    intro n x h
    simp only [natDecAux] at h
    by_cases hn : n < 10
    · rw [if_pos hn] at h
      rcases List.mem_singleton.mp h with rfl
      exact digitChar_not_ws n
    · rw [if_neg hn] at h
      rcases List.mem_append.mp h with h' | h'
      · exact ih _ _ h'
      · rcases List.mem_singleton.mp h' with rfl
        exact digitChar_not_ws _

theorem natDec_not_ws (n : Nat) : ∀ x ∈ (natDec n).data, x.isWhitespace = false :=
  fun x hx => natDecAux_not_ws _ _ x hx

theorem intDec_not_ws (n : Int) : ∀ x ∈ (intDec n).data, x.isWhitespace = false := by
  intro x hx
  unfold intDec at hx
  by_cases h : n < 0
  · rw [if_pos h, String.data_append] at hx
    rcases List.mem_append.mp hx with h' | h'
    · rcases List.mem_singleton.mp h' with rfl
      decide
    · exact natDec_not_ws _ x h'
  · rw [if_neg h] at hx
    exact natDec_not_ws _ x hx

theorem escapeChar_ws (c x : Char) (hc : c.isWhitespace = false) (hx : x ∈ escapeChar c) :
    x.isWhitespace = false := by
  unfold escapeChar at hx
  split_ifs at hx with h1 h2 h3 h4 h5 h6 h7 h8
  case pos =>
    rcases List.mem_cons.mp hx with rfl | hx
    · decide
    rcases List.mem_singleton.mp hx with rfl
    decide
  case pos =>
    rcases List.mem_cons.mp hx with rfl | hx
    · decide
    rcases List.mem_singleton.mp hx with rfl
    decide
  case pos =>
    rcases List.mem_cons.mp hx with rfl | hx
    · decide
    rcases List.mem_singleton.mp hx with rfl
    decide
  case pos =>
    rcases List.mem_cons.mp hx with rfl | hx
    · decide
    rcases List.mem_singleton.mp hx with rfl
    decide
  case pos =>
    rcases List.mem_cons.mp hx with rfl | hx
    · decide
    rcases List.mem_singleton.mp hx with rfl
    decide
  case pos =>
    rcases List.mem_cons.mp hx with rfl | hx
    · decide
    rcases List.mem_singleton.mp hx with rfl
    decide
  case pos =>
    rcases List.mem_cons.mp hx with rfl | hx
    · decide
    rcases List.mem_singleton.mp hx with rfl
    decide
  case pos =>
    rcases List.mem_cons.mp hx with rfl | hx
    · decide
    rcases List.mem_cons.mp hx with rfl | hx
    · decide
    rcases List.mem_cons.mp hx with rfl | hx
    · decide
    rcases List.mem_cons.mp hx with rfl | hx
    · decide
    rcases List.mem_cons.mp hx with rfl | hx
    · exact hexDigitChar_not_ws _
    rcases List.mem_singleton.mp hx with rfl
    exact hexDigitChar_not_ws _
  case neg =>
    rcases List.mem_singleton.mp hx with rfl
    exact hc

theorem escapeString_ws (s : String) (hs : strNoWs s = true) :
    ∀ x ∈ (escapeString s).data, x.isWhitespace = false := by
  intro x hx
  unfold strNoWs at hs
  unfold escapeString at hx
  rcases List.mem_cons.mp hx with rfl | hx
  · decide
  rcases List.mem_append.mp hx with h' | h'
  · rcases List.mem_flatMap.mp h' with ⟨c, hc, hcc⟩
    have hcw : c.isWhitespace = false := by
      have := List.all_eq_true.mp hs c hc
      simpa using this
    exact escapeChar_ws c x hcw hcc
  · rcases List.mem_singleton.mp h' with rfl
    decide

mutual

theorem serializeJson_ws : ∀ v : Json, jsonNoWs v = true →
    ∀ x ∈ (serializeJson v).data, x.isWhitespace = false
  | .null => fun _ => by decide
  | .bool true => fun _ => by decide
  | .bool false => fun _ => by decide
  | .num n => fun _ => intDec_not_ws n
  | .str s => fun h => escapeString_ws s h
  | .arr items => fun h => by
    intro x hx
    simp only [serializeJson, String.data_append] at hx
    rcases List.mem_append.mp hx with h' | h'
    · rcases List.mem_append.mp h' with h'' | h''
      · rcases List.mem_singleton.mp h'' with rfl
        decide
      · exact serializeItems_ws items h x h''
    · rcases List.mem_singleton.mp h' with rfl
      decide
  | .obj entries => fun h => by
    intro x hx
    simp only [serializeJson, String.data_append] at hx
    rcases List.mem_append.mp hx with h' | h'
    · rcases List.mem_append.mp h' with h'' | h''
      · rcases List.mem_singleton.mp h'' with rfl
        decide
      · exact serializeEntries_ws entries h x h''
    · rcases List.mem_singleton.mp h' with rfl
      decide

theorem serializeItems_ws : ∀ l : List Json, itemsNoWs l = true →
    ∀ x ∈ (serializeItems l).data, x.isWhitespace = false
  | [] => fun _ => by decide
  | [x0] => fun h => by
    have hp : (jsonNoWs x0 && itemsNoWs []) = true := h
    simp only [Bool.and_eq_true] at hp
    exact serializeJson_ws x0 hp.1
  | x0 :: y :: xs => fun h => by
    have hp : (jsonNoWs x0 && itemsNoWs (y :: xs)) = true := h
    simp only [Bool.and_eq_true] at hp
    intro x hx
    simp only [serializeItems, String.data_append] at hx
    rcases List.mem_append.mp hx with h' | h'
    · rcases List.mem_append.mp h' with h'' | h''
      · exact serializeJson_ws x0 hp.1 x h''
      · rcases List.mem_singleton.mp h'' with rfl
        decide
    · exact serializeItems_ws (y :: xs) hp.2 x h'

theorem serializeEntries_ws : ∀ l : List (String × Json), entriesNoWs l = true →
    ∀ x ∈ (serializeEntries l).data, x.isWhitespace = false
  | [] => fun _ => by decide
  | [(k, v)] => fun h => by
    have hp : ((strNoWs k && jsonNoWs v) && entriesNoWs []) = true := h
    simp only [Bool.and_eq_true] at hp
    have hkv := hp.1
    intro x hx
    simp only [serializeEntries, String.data_append] at hx
    rcases List.mem_append.mp hx with h' | h'
    · rcases List.mem_append.mp h' with h'' | h''
      · exact escapeString_ws k hkv.1 x h''
      · rcases List.mem_singleton.mp h'' with rfl
        decide
    · exact serializeJson_ws v hkv.2 x h'
  | (k, v) :: e :: xs => fun h => by
    have hp : ((strNoWs k && jsonNoWs v) && entriesNoWs (e :: xs)) = true := h
    simp only [Bool.and_eq_true] at hp
    have hkv := hp.1
    intro x hx
    simp only [serializeEntries, String.data_append] at hx
    rcases List.mem_append.mp hx with h' | h'
    · rcases List.mem_append.mp h' with h'' | h''
      · rcases List.mem_append.mp h'' with h3 | h3
        · rcases List.mem_append.mp h3 with h4 | h4
          · exact escapeString_ws k hkv.1 x h4
          · rcases List.mem_singleton.mp h4 with rfl
            decide
        · exact serializeJson_ws v hkv.2 x h3
      · rcases List.mem_singleton.mp h'' with rfl
        decide
    · exact serializeEntries_ws (e :: xs) hp.2 x h'

end

theorem entriesNoWs_eq_all : ∀ l : List (String × Json),
    entriesNoWs l = l.all fun kv => strNoWs kv.1 && jsonNoWs kv.2 := by
  intro l
  induction l with
  | nil => rfl
  | cons kv rest ih =>
    obtain ⟨k, v⟩ := kv
    simp only [entriesNoWs, List.all_cons, ih]

theorem entriesNoWs_btree (l : List (String × Json)) (h : entriesNoWs l = true) :
    entriesNoWs (btreeCollect l) = true := by
  rw [entriesNoWs_eq_all] at h ⊢
  rw [List.all_eq_true] at h ⊢
  intro kv hkv
  exact h kv (mem_btreeCollect hkv)

mutual

theorem sortJson_noWs : ∀ v : Json, jsonNoWs v = true → jsonNoWs (sort_json_value v) = true
  | .null => fun h => h
  | .bool b => fun h => h
  | .num n => fun h => h
  | .str s => fun h => h
  | .arr items => fun h => sortItems_noWs items h
  | .obj entries => fun h => entriesNoWs_btree _ (sortEntries_noWs entries h)

theorem sortItems_noWs : ∀ l : List Json, itemsNoWs l = true → itemsNoWs (sortItems l) = true
  | [] => fun h => h
  | x :: xs => fun h => by
    have hp : (jsonNoWs x && itemsNoWs xs) = true := h
    simp only [Bool.and_eq_true] at hp
    show (jsonNoWs (sort_json_value x) && itemsNoWs (sortItems xs)) = true
    rw [sortJson_noWs x hp.1, sortItems_noWs xs hp.2]
    decide

theorem sortEntries_noWs : ∀ l : List (String × Json),
    entriesNoWs l = true → entriesNoWs (sortEntryValues l) = true
  | [] => fun h => h
  | (k, v) :: rest => fun h => by
    have hp : ((strNoWs k && jsonNoWs v) && entriesNoWs rest) = true := h
    simp only [Bool.and_eq_true] at hp
    have hkv := hp.1
    show ((strNoWs k && jsonNoWs (sort_json_value v)) && entriesNoWs (sortEntryValues rest)) = true
    rw [sortJson_noWs v hkv.2, sortEntries_noWs rest hp.2, hkv.1]
    decide

end

theorem to_canonical_json_no_nl (v : Json) : '\n' ∉ (to_canonical_json v).data :=
  serializeJson_no_nl _

/-- C2: the canonical encoder maps values that are structurally equal modulo
object key order (relation `JEquiv`) to byte-identical output; the
canonicalized value has its object keys strictly sorted by code-point order
at every nesting depth (`CanonicalKeys`); arrays keep their element order;
the output never contains a newline (in particular no trailing newline); and
whenever the value's own strings are whitespace-free, so is the entire
output — the encoder inserts no whitespace between tokens. -/
theorem canonical_json_spec :
    (∀ a b : Json, JEquiv a b → to_canonical_json a = to_canonical_json b) ∧
    (∀ v : Json, CanonicalKeys (sort_json_value v)) ∧
    (∀ l : List Json, sort_json_value (.arr l) = .arr (l.map sort_json_value)) ∧
    (∀ v : Json, '\n' ∉ (to_canonical_json v).data) ∧
    (∀ v : Json, jsonNoWs v = true →
      ∀ x ∈ (to_canonical_json v).data, x.isWhitespace = false) := by
  refine ⟨?_, canonKeys_sortJson, ?_, to_canonical_json_no_nl, ?_⟩
  · intro a b h
    unfold to_canonical_json
    rw [sortJson_eq_of_jequiv h]
  · intro l
    simp only [sort_json_value, sortItems_eq_map]
  · intro v h
    exact serializeJson_ws _ (sortJson_noWs v h)

/-- Two objects equal up to key order, with a nested reordered object. -/
def c2a : Json := .obj [("b", .num 1), ("a", .obj [("d", .num 2), ("c", .num 3)])]

/-- `c2a` with both levels of keys listed in the other order. -/
def c2b : Json := .obj [("a", .obj [("c", .num 3), ("d", .num 2)]), ("b", .num 1)]

theorem canonical_json_spec_witness :
    JEquiv c2a c2b ∧ to_canonical_json c2a = to_canonical_json c2b ∧
    jsonNoWs c2a = true ∧
    ∀ x ∈ (to_canonical_json c2a).data, x.isWhitespace = false := by
  have hequiv : JEquiv c2a c2b :=
    JEquiv.trans
      (JEquiv.objCons "b" (JEquiv.refl (.num 1))
        (JEquiv.objCons "a" (JEquiv.objSwap (by decide)) (JEquiv.refl (.obj []))))
      (JEquiv.objSwap (by decide))
  exact ⟨hequiv, canonical_json_spec.1 c2a c2b hequiv, by decide,
    canonical_json_spec.2.2.2.2 c2a (by decide)⟩

/-- C7: for a lockfile value that passes the shape check, when the stored
`lock_hash` differs from the recomputed self-hash the run reports
`VERIFY_FAILED` with `members = null` and exit code 1, for every filesystem
root (including a present `--root`), every digest function and every
strictness setting — member verification is never consulted. -/
theorem verify_hash_gate_spec :
    ∀ (b3 : List Nat → String) (value : Json) (root : Option FS) (root_name : String)
      (strict : Bool),
      validate_lockfile_json value = Except.ok value →
      (verify_lock_hash_detail value).stored ≠ (verify_lock_hash_detail value).computed →
      run_verify_checked b3 value root root_name strict =
        { outcome := "VERIFY_FAILED", lock_hash := verify_lock_hash_detail value,
          members := none, exit_code := 1 } := by
  intro b3 value root root_name strict _ hne
  have hv : (verify_lock_hash_detail value).valid = false := by
    show ((verify_lock_hash_detail value).stored ==
      (verify_lock_hash_detail value).computed) = false
    exact beq_eq_false_iff_ne.mpr hne
  simp only [run_verify_checked, hv, Bool.not_false, if_true]

theorem verify_hash_gate_spec_witness :
    validate_lockfile_json (lockfileToJson { wlf with lock_hash := "bogus" }) =
      Except.ok (lockfileToJson { wlf with lock_hash := "bogus" }) ∧
    (verify_lock_hash_detail (lockfileToJson { wlf with lock_hash := "bogus" })).stored ≠
      (verify_lock_hash_detail (lockfileToJson { wlf with lock_hash := "bogus" })).computed ∧
    run_verify_checked (fun _ => "") (lockfileToJson { wlf with lock_hash := "bogus" })
        (some []) "root" true =
      { outcome := "VERIFY_FAILED",
        lock_hash := verify_lock_hash_detail (lockfileToJson { wlf with lock_hash := "bogus" }),
        members := none, exit_code := 1 } :=
  ⟨rfl, by decide,
   verify_hash_gate_spec (fun _ => "") (lockfileToJson { wlf with lock_hash := "bogus" })
     (some []) "root" true rfl (by decide)⟩

-- ===========================================================================
-- Witness chain invariant
-- ===========================================================================

/-- The record body built by `append_witness_record_to` before the id is
substituted: the fixed field order of the source, with `id = ""`. -/
def witnessPre (b3 : List Nat → String) (prev : Option String) (p : WitnessAppendInput) : Json :=
  Json.obj
    [("id", .str ""), ("tool", .str "lock"), ("version", .str p.version),
     ("binary_hash", .null), ("inputs", p.inputs), ("params", p.params),
     ("outcome", .str p.outcome), ("exit_code", .num p.exit_code),
     ("output_hash", .str ("blake3:" ++ b3 p.output_bytes)), ("prev", optStrJson prev),
     ("ts", .str p.ts)]

theorem append_record_shape (b3 : List Nat → String) (L : List Json) (p : WitnessAppendInput) :
    append_witness_record_to b3 L p =
      L ++ [jsonInsert (witnessPre b3 (read_last_record_id L) p) "id"
        (.str ("blake3:" ++
          b3 (strBytes (serializeJson (witnessPre b3 (read_last_record_id L) p)))))] := rfl

theorem jsonGet_insert_id (b3 : List Nat → String) (prev : Option String)
    (p : WitnessAppendInput) (s : String) :
    jsonGet (jsonInsert (witnessPre b3 prev p) "id" (.str s)) "id" = some (.str s) := rfl

theorem jsonInsert_insert_id (b3 : List Nat → String) (prev : Option String)
    (p : WitnessAppendInput) (s : String) :
    jsonInsert (jsonInsert (witnessPre b3 prev p) "id" (.str s)) "id" (.str "") =
      witnessPre b3 prev p := rfl

theorem jsonGet_insert_prev (b3 : List Nat → String) (prev : Option String)
    (p : WitnessAppendInput) (s : String) :
    jsonGet (jsonInsert (witnessPre b3 prev p) "id" (.str s)) "prev" =
      some (optStrJson prev) := rfl

/-- A record whose stored id is the digest of itself with id blanked. -/
def idOk (b3 : List Nat → String) (r : Json) : Prop :=
  jsonGet r "id" = some (.str ("blake3:" ++
    b3 (strBytes (serializeJson (jsonInsert r "id" (.str ""))))))

/-- Each non-first record's `prev` equals the previous record's `id`. -/
def chainLinks (L : List Json) : Prop :=
  ∀ i : Nat, i + 1 < L.length →
    (L[i + 1]?.bind fun r => jsonGet r "prev") = (L[i]?.bind fun r => jsonGet r "id")

/-- The full chain invariant of a witness ledger. -/
def chainInv (b3 : List Nat → String) (L : List Json) : Prop :=
  (∀ r ∈ L, idOk b3 r) ∧ chainLinks L ∧
  (L ≠ [] → (L[0]?.bind fun r => jsonGet r "prev") = some Json.null)

theorem idOk_newRec (b3 : List Nat → String) (prev : Option String) (p : WitnessAppendInput) :
    idOk b3 (jsonInsert (witnessPre b3 prev p) "id"
      (.str ("blake3:" ++ b3 (strBytes (serializeJson (witnessPre b3 prev p)))))) := by
  unfold idOk
  rw [jsonGet_insert_id, jsonInsert_insert_id]

theorem chainLink_seam (b3 : List Nat → String) (L : List Json) (p : WitnessAppendInput)
    (hid : ∀ r ∈ L, idOk b3 r) (hne : L ≠ []) :
    jsonGet (jsonInsert (witnessPre b3 (read_last_record_id L) p) "id"
        (.str ("blake3:" ++
          b3 (strBytes (serializeJson (witnessPre b3 (read_last_record_id L) p)))))) "prev" =
      jsonGet (L.getLast hne) "id" := by
  rw [jsonGet_insert_prev]
  have hgl := List.getLast?_eq_getLast L hne
  have hidlast := hid (L.getLast hne) (List.getLast_mem hne)
  have hread : read_last_record_id L = some ("blake3:" ++
      b3 (strBytes (serializeJson (jsonInsert (L.getLast hne) "id" (.str ""))))) := by
    unfold read_last_record_id
    rw [hgl]
    show (jsonGet (L.getLast hne) "id").bind asStr = _
    rw [hidlast]
    rfl
  rw [hread, hidlast]
  rfl

theorem chainLinks_append (L : List Json) (n : Json) (hlink : chainLinks L)
    (hseam : ∀ hne : L ≠ [], jsonGet n "prev" = jsonGet (L.getLast hne) "id") :
    chainLinks (L ++ [n]) := by
  intro i hi
  have hlen : (L ++ [n]).length = L.length + 1 := by simp
  rw [hlen] at hi
  by_cases hcase : i + 1 < L.length
  · rw [List.getElem?_append_left hcase, List.getElem?_append_left (by omega)]
    exact hlink i hcase
  · have hieq : i + 1 = L.length := by omega
    have hne : L ≠ [] := by
      intro he
      rw [he, List.length_nil] at hieq
      omega
    have h1 : (L ++ [n])[i + 1]? = some n := by
      rw [hieq]
      exact List.getElem?_concat_length L n
    have h2 : (L ++ [n])[i]? = L[i]? := List.getElem?_append_left (by omega)
    have hLi : L[i]? = some (L.getLast hne) := by
      rw [show i = L.length - 1 by omega, ← List.getLast?_eq_getElem?]
      exact List.getLast?_eq_getLast L hne
    rw [h1, h2, hLi]
    show jsonGet n "prev" = jsonGet (L.getLast hne) "id"
    exact hseam hne

theorem chainFirst_append (L : List Json) (n : Json)
    (hfirst : L ≠ [] → (L[0]?.bind fun r => jsonGet r "prev") = some Json.null)
    (hempty : L = [] → jsonGet n "prev" = some Json.null) :
    ((L ++ [n])[0]?.bind fun r => jsonGet r "prev") = some Json.null := by
  cases L with
  | nil => exact hempty rfl
  | cons x xs =>
    rw [List.getElem?_append_left (by simp)]
    exact hfirst (by simp)

theorem chainInv_append (b3 : List Nat → String) (L : List Json) (p : WitnessAppendInput)
    (h : chainInv b3 L) : chainInv b3 (append_witness_record_to b3 L p) := by
  obtain ⟨hid, hlink, hfirst⟩ := h
  rw [append_record_shape]
  refine ⟨?_, ?_, ?_⟩
  · intro r hr
    rcases List.mem_append.mp hr with h' | h'
    · exact hid r h'
    · rcases List.mem_singleton.mp h' with rfl
      exact idOk_newRec b3 (read_last_record_id L) p
  · refine chainLinks_append L _ hlink ?_
    intro hne
    exact chainLink_seam b3 L p hid hne
  · intro _
    refine chainFirst_append L _ hfirst ?_
    intro he
    rw [jsonGet_insert_prev, he]
    rfl

theorem chainInv_nil (b3 : List Nat → String) : chainInv b3 [] := by
  refine ⟨fun r hr => absurd hr (List.not_mem_nil r), fun i hi => ?_, fun h => absurd rfl h⟩
  simp at hi

theorem chainInv_foldl (b3 : List Nat → String) :
    ∀ (ps : List WitnessAppendInput) (L : List Json),
      chainInv b3 L → chainInv b3 (ps.foldl (append_witness_record_to b3) L)
  | [], _, h => h
  | p :: rest, L, h => chainInv_foldl b3 rest _ (chainInv_append b3 L p h)

theorem run_witness_length (b3 : List Nat → String) :
    ∀ (ps : List WitnessAppendInput) (L : List Json),
      (ps.foldl (append_witness_record_to b3) L).length = L.length + ps.length
  | [], L => by simp
  | p :: rest, L => by
    rw [List.foldl_cons, run_witness_length b3 rest, append_record_shape]
    simp
    omega

/-- C3: over any sequence of successful appends to the same ledger and any
digest function, every record's stored id recomputes to itself — it equals
`"blake3:"` plus the digest of the record serialized with `id` set to the
empty string — and every record's `prev` equals the id of the
immediately-prior record, the first record carrying `prev = null`. -/
theorem witness_chain_spec :
    ∀ (b3 : List Nat → String) (ps : List WitnessAppendInput),
      (∀ r ∈ run_witness_appends b3 ps,
        jsonGet r "id" = some (.str ("blake3:" ++
          b3 (strBytes (serializeJson (jsonInsert r "id" (.str ""))))))) ∧
      (∀ i : Nat, i + 1 < (run_witness_appends b3 ps).length →
        ((run_witness_appends b3 ps)[i + 1]?.bind fun r => jsonGet r "prev") =
          ((run_witness_appends b3 ps)[i]?.bind fun r => jsonGet r "id")) ∧
      (ps ≠ [] →
        ((run_witness_appends b3 ps)[0]?.bind fun r => jsonGet r "prev") =
          some Json.null) := by
  intro b3 ps
  obtain ⟨hid, hlink, hfirst⟩ := chainInv_foldl b3 ps [] (chainInv_nil b3)
  refine ⟨hid, hlink, ?_⟩
  intro hps
  refine hfirst ?_
  intro he
  have hlen := run_witness_length b3 ps []
  rw [he] at hlen
  simp at hlen
  exact hps (List.length_eq_zero.mp hlen.symm)

/-- A concrete digest stand-in: the decimal byte count. -/
def c3b3 : List Nat → String := fun bytes => natDec bytes.length

/-- First witness append input. -/
def c3p1 : WitnessAppendInput :=
  { outcome := "LOCK_OK", exit_code := 0, output_bytes := [1, 2], params := Json.null,
    inputs := Json.null, version := "0.1.0", ts := "t1" }

/-- Second witness append input. -/
def c3p2 : WitnessAppendInput :=
  { outcome := "VERIFY_OK", exit_code := 0, output_bytes := [], params := Json.null,
    inputs := Json.null, version := "0.1.0", ts := "t2" }

/-- Two appends against the same ledger. -/
def c3ps : List WitnessAppendInput := [c3p1, c3p2]

theorem witness_chain_spec_witness :
    (jsonGet ((run_witness_appends c3b3 c3ps).get ⟨0, by decide⟩) "id" =
      some (.str ("blake3:" ++ c3b3 (strBytes (serializeJson
        (jsonInsert ((run_witness_appends c3b3 c3ps).get ⟨0, by decide⟩) "id"
          (.str ""))))))) ∧
    (0 + 1 < (run_witness_appends c3b3 c3ps).length ∧
      ((run_witness_appends c3b3 c3ps)[0 + 1]?.bind fun r => jsonGet r "prev") =
        ((run_witness_appends c3b3 c3ps)[0]?.bind fun r => jsonGet r "id")) ∧
    (c3ps ≠ [] ∧
      ((run_witness_appends c3b3 c3ps)[0]?.bind fun r => jsonGet r "prev") =
        some Json.null) :=
  ⟨(witness_chain_spec c3b3 c3ps).1 _ (List.get_mem _ 0 (by decide)),
   ⟨by decide, (witness_chain_spec c3b3 c3ps).2.1 0 (by decide)⟩,
   ⟨show c3p1 :: [c3p2] ≠ [] from List.cons_ne_nil _ _,
    (witness_chain_spec c3b3 c3ps).2.2 (show c3p1 :: [c3p2] ≠ [] from List.cons_ne_nil _ _)⟩⟩

-- ===========================================================================
-- Classification under permutation
-- ===========================================================================

theorem classify_records_eq (records : List InputRecord) :
    classify_records records =
      match classifyAux records with
      | .error e => .error e
      | .ok (ms, ss) =>
        .ok { members := List.insertionSort memberLe ms
              skipped := List.insertionSort skippedLe ss
              skipped_count := (List.insertionSort skippedLe ss).length
              member_count := (List.insertionSort memberLe ms).length
              outcome := if (List.insertionSort skippedLe ss).isEmpty then .lockCreated
                else .lockPartial } := by
  unfold classify_records
  cases classifyAux records with
  | error e => rfl
  | ok p =>
    obtain ⟨ms, ss⟩ := p
    rfl

theorem classify_records_ok_inv {l : List InputRecord} {c : Classification}
    (h : classify_records l = .ok c) :
    ∃ ms ss, classifyAux l = .ok (ms, ss) ∧
      c = { members := List.insertionSort memberLe ms
            skipped := List.insertionSort skippedLe ss
            skipped_count := (List.insertionSort skippedLe ss).length
            member_count := (List.insertionSort memberLe ms).length
            outcome := if (List.insertionSort skippedLe ss).isEmpty then .lockCreated
              else .lockPartial } := by
  rw [classify_records_eq] at h
  cases hca : classifyAux l with
  | error e => rw [hca] at h; cases h
  | ok p =>
    obtain ⟨ms, ss⟩ := p
    rw [hca] at h
    cases h
    exact ⟨ms, ss, rfl, rfl⟩

theorem classifyAux_ok_inv {l : List InputRecord} {ms : List Member} {ss : List SkippedEntry}
    (h : classifyAux l = .ok (ms, ss)) :
    ∃ cs, classifySeq l = .ok cs ∧ ms = pickMembers cs ∧ ss = pickSkipped cs := by
  unfold classifyAux at h
  cases hcs : classifySeq l with
  | error e => rw [hcs] at h; cases h
  | ok cs =>
    rw [hcs] at h
    cases h
    exact ⟨cs, rfl, rfl, rfl⟩

/-- C5 (amended): `classify_records` sorts both output sequences by path
(and reports matching counts and outcome), and classification is invariant
under permutation of the input records whenever the classified paths are
duplicate-free.  With duplicate paths the two stable sorts can order the
equal-path entries differently (refuted separately), which is why the
duplicate-freedom hypothesis is required. -/
theorem classify_records_perm_spec :
    (∀ (l : List InputRecord) (c : Classification), classify_records l = .ok c →
      c.members.Sorted memberLe ∧ c.skipped.Sorted skippedLe ∧
      c.member_count = c.members.length ∧ c.skipped_count = c.skipped.length ∧
      c.outcome = (if c.skipped.isEmpty then DomainOutcome.lockCreated
        else DomainOutcome.lockPartial)) ∧
    (∀ l1 l2 : List InputRecord, l1.Perm l2 →
      ∀ c1 c2 : Classification, classify_records l1 = .ok c1 →
        classify_records l2 = .ok c2 →
        (c1.members.map Member.path).Nodup →
        (c1.skipped.map SkippedEntry.path).Nodup →
        c1 = c2) := by
  constructor
  · intro l c h
    obtain ⟨ms, ss, _, rfl⟩ := classify_records_ok_inv h
    exact ⟨List.sorted_insertionSort memberLe ms, List.sorted_insertionSort skippedLe ss,
      rfl, rfl, rfl⟩
  · intro l1 l2 hp c1 c2 h1 h2 hnm hns
    obtain ⟨ms1, ss1, hca1, rfl⟩ := classify_records_ok_inv h1
    obtain ⟨ms2, ss2, hca2, rfl⟩ := classify_records_ok_inv h2
    obtain ⟨cs1, hcs1, hm1, hs1⟩ := classifyAux_ok_inv hca1
    obtain ⟨cs2, hcs2, hm2, hs2⟩ := classifyAux_ok_inv hca2
    have hcperm : cs1.Perm cs2 := classifySeq_perm hp hcs1 hcs2
    have hmp : ms1.Perm ms2 := by
      rw [hm1, hm2]
      exact hcperm.filterMap _
    have hsp : ss1.Perm ss2 := by
      rw [hs1, hs2]
      exact hcperm.filterMap _
    have hmperm : (List.insertionSort memberLe ms1).Perm (List.insertionSort memberLe ms2) :=
      ((List.perm_insertionSort memberLe ms1).trans hmp).trans
        (List.perm_insertionSort memberLe ms2).symm
    have hsperm : (List.insertionSort skippedLe ss1).Perm (List.insertionSort skippedLe ss2) :=
      ((List.perm_insertionSort skippedLe ss1).trans hsp).trans
        (List.perm_insertionSort skippedLe ss2).symm
    have hmeq : List.insertionSort memberLe ms1 = List.insertionSort memberLe ms2 :=
      eq_of_perm_sorted_nodup_key Member.path hmperm
        (List.sorted_insertionSort memberLe ms1) (List.sorted_insertionSort memberLe ms2) hnm
    have hseq : List.insertionSort skippedLe ss1 = List.insertionSort skippedLe ss2 :=
      eq_of_perm_sorted_nodup_key SkippedEntry.path hsperm
        (List.sorted_insertionSort skippedLe ss1) (List.sorted_insertionSort skippedLe ss2) hns
    rw [hmeq, hseq]

/-- Two valid records that share the path `a.csv` but differ in content. -/
def c5r1 : InputRecord :=
  ⟨1, .obj [("path", .str "a.csv"), ("bytes_hash", .str "sha256:aa"), ("size", .num 1)]⟩

/-- Same path as `c5r1`, different hash and size. -/
def c5r2 : InputRecord :=
  ⟨2, .obj [("path", .str "a.csv"), ("bytes_hash", .str "sha256:bb"), ("size", .num 2)]⟩

theorem classify_records_duplicate_path_order_dependent :
    [c5r1, c5r2].Perm [c5r2, c5r1] ∧
    classify_records [c5r1, c5r2] ≠ classify_records [c5r2, c5r1] :=
  ⟨List.Perm.swap c5r2 c5r1 [], by decide⟩

/-- A valid record with path `a.csv`. -/
def c5a1 : InputRecord :=
  ⟨1, .obj [("path", .str "a.csv"), ("bytes_hash", .str "sha256:aa"), ("size", .num 1)]⟩

/-- A valid record with path `b.csv`. -/
def c5a2 : InputRecord :=
  ⟨2, .obj [("path", .str "b.csv"), ("bytes_hash", .str "sha256:bb"), ("size", .num 2)]⟩

/-- The classification shared by both orders of `[c5a1, c5a2]`. -/
def c5cls : Classification :=
  { members := [⟨"a.csv", "sha256:aa", 1, none⟩, ⟨"b.csv", "sha256:bb", 2, none⟩]
    skipped := []
    skipped_count := 0
    member_count := 2
    outcome := .lockCreated }

theorem classify_records_perm_spec_witness :
    ([c5a1, c5a2].Perm [c5a2, c5a1] ∧
      classify_records [c5a1, c5a2] = .ok c5cls ∧
      classify_records [c5a2, c5a1] = .ok c5cls ∧
      (c5cls.members.map Member.path).Nodup ∧
      (c5cls.skipped.map SkippedEntry.path).Nodup ∧
      c5cls = c5cls) ∧
    (c5cls.members.Sorted memberLe ∧ c5cls.skipped.Sorted skippedLe ∧
      c5cls.member_count = c5cls.members.length ∧
      c5cls.skipped_count = c5cls.skipped.length ∧
      c5cls.outcome = (if c5cls.skipped.isEmpty then DomainOutcome.lockCreated
        else DomainOutcome.lockPartial)) :=
  ⟨⟨List.Perm.swap c5a2 c5a1 [], by decide, by decide, by decide, by decide,
    classify_records_perm_spec.2 [c5a1, c5a2] [c5a2, c5a1] (List.Perm.swap c5a2 c5a1 [])
      c5cls c5cls (by decide) (by decide) (by decide) (by decide)⟩,
   classify_records_perm_spec.1 [c5a1, c5a2] c5cls (by decide)⟩
